import Mathlib

set_option maxHeartbeats 1000000

/-!
Shallow embedding of backup.py (net4people/bbs), a GitHub issue archiver
that stores API responses in an SQLite database, together with proofs of
the behavioural claims about it.

Conventions used throughout:
* Byte bodies are modelled as lists of naturals (`Blob`).
* Python strings are Lean `String`s; character-level work is done on
  `List Char` via `String.data`.
* The SQLite database is modelled as an explicit `Store` record; a
  transaction is a list of micro-operations that become visible only at
  commit (SQLite's rollback journal guarantees exactly this), so the set
  of states a crash can expose is the set of transaction-boundary states.
* Functions from `urllib.parse` (an external library) are modelled on the
  ASCII range following CPython's algorithms; `int(...)` follows CPython's
  literal parsing (optional sign, digits, single underscores between
  digits, surrounding whitespace).
-/

abbrev Blob := List Nat

/-- ASCII alphabetic test, modelling Python str.isalpha on the ASCII range
(codepoints 97-122 and 65-90). -/
def isAsciiAlpha (c : Char) : Bool :=
  (97 ≤ c.toNat && c.toNat ≤ 122) || (65 ≤ c.toNat && c.toNat ≤ 90)

/-- ASCII digit test (codepoints 48-57). -/
def isAsciiDigit (c : Char) : Bool := 48 ≤ c.toNat && c.toNat ≤ 57

/-- Numeric value of an ASCII digit (codepoint minus 48). -/
def digitVal (c : Char) : Nat := c.toNat - 48

/-- The ASCII whitespace characters stripped by Python int() before parsing. -/
def isPySpace (c : Char) : Bool :=
  c = ' ' || c = '\t' || c = '\n' || c = '\r' || c = '\x0b' || c = '\x0c'

/-- Digit tail of a Python integer literal: digits with single underscores
allowed between digits (int("1_0") parses, int("1__0") and int("1_") do not). -/
def pyDigitsAux : List Char → Nat → Option Nat
  | [], acc => some acc
  | '_' :: rest, acc =>
    match rest with
    | [] => none
    | c :: rest2 =>
      if isAsciiDigit c then pyDigitsAux rest2 (acc * 10 + digitVal c) else none
  | c :: rest, acc =>
    if isAsciiDigit c then pyDigitsAux rest (acc * 10 + digitVal c) else none

/-- Unsigned digit string of a Python integer literal: at least one digit,
which must not be an underscore. -/
def pyNatDigits : List Char → Option Nat
  | [] => none
  | c :: rest => if isAsciiDigit c then pyDigitsAux rest (digitVal c) else none

/-- Strip leading and trailing whitespace, as Python int() does. -/
def pyStrip (l : List Char) : List Char :=
  ((l.dropWhile isPySpace).reverse.dropWhile isPySpace).reverse

/-- Python int(string): strip whitespace, optional sign, digits.
Returns none where Python raises ValueError. -/
def pyIntChars (l : List Char) : Option Int :=
  match pyStrip l with
  | '+' :: rest => (pyNatDigits rest).map (fun n => (n : Int))
  | '-' :: rest => (pyNatDigits rest).map (fun n => -(n : Int))
  | rest => (pyNatDigits rest).map (fun n => (n : Int))

/-- Python int() on a Lean string. -/
def pyInt (s : String) : Option Int := pyIntChars s.data

/-- backup.py strip_prefix: return seq with pre stripped if pre is a prefix
of seq, or else none.  Mirrors the source: a length guard, an elementwise
comparison over zip (which Python truncates at the shorter list, here pre),
and a slice. -/
def strip_prefix {α : Type} [DecidableEq α] (seq pre : List α) : Option (List α) :=
  if seq.length < pre.length then none
  else if (seq.zip pre).all (fun ab => decide (ab.1 = ab.2)) then
    some (seq.drop pre.length)
  else none

theorem zip_all_eq_iff_take {α : Type} [DecidableEq α] :
    ∀ (p s : List α), p.length ≤ s.length →
      (((s.zip p).all (fun ab => decide (ab.1 = ab.2))) = true ↔ s.take p.length = p) := by
  intro p
  induction p with
  | nil => intro s _; simp
  | cons b p ih =>
    intro s hlen
    cases s with
    | nil => simp at hlen
    | cons a s =>
      simp only [List.zip_cons_cons, List.all_cons, List.length_cons, List.take_succ_cons,
        Bool.and_eq_true, decide_eq_true_eq]
      rw [ih s (by simpa using hlen)]
      constructor
      · rintro ⟨h1, h2⟩; rw [h1, h2]
      · intro h; injection h with h1 h2; exact ⟨h1, h2⟩

theorem strip_prefix_eq_some_iff {α : Type} [DecidableEq α] (seq pre r : List α) :
    strip_prefix seq pre = some r ↔ seq = pre ++ r := by
  unfold strip_prefix
  by_cases hlen : seq.length < pre.length
  · simp only [hlen, if_true]
    constructor
    · intro h; cases h
    · intro h
      rw [h, List.length_append] at hlen
      omega
  · have hle : pre.length ≤ seq.length := by omega
    simp only [hlen, if_false]
    by_cases hall : ((seq.zip pre).all (fun ab => decide (ab.1 = ab.2))) = true
    · have htake : seq.take pre.length = pre := (zip_all_eq_iff_take pre seq hle).mp hall
      simp only [hall, if_true, Option.some.injEq]
      constructor
      · intro h
        conv_lhs => rw [← List.take_append_drop pre.length seq]
        rw [htake, h]
      · intro h
        rw [h]
        exact List.drop_left pre r
    · simp only [hall, if_false]
      constructor
      · intro h; cases h
      · intro h
        exfalso
        apply hall
        rw [zip_all_eq_iff_take pre seq hle, h]
        exact List.take_left pre r

/-- C8: strip_prefix returns r exactly when seq is pre followed by r (and
none otherwise); stripping the empty sequence is the identity, and stripping
a sequence from itself leaves the empty sequence. -/
theorem strip_prefix_characterization {α : Type} [DecidableEq α] (seq pre : List α) :
    (∀ r, strip_prefix seq pre = some r ↔ seq = pre ++ r)
    ∧ strip_prefix seq ([] : List α) = some seq
    ∧ strip_prefix seq seq = some ([] : List α) := by
  refine ⟨fun r => strip_prefix_eq_some_iff seq pre r, ?_, ?_⟩
  · rw [ strip_prefix_eq_some_iff]
    simp
  · rw [ strip_prefix_eq_some_iff]
    simp

/-! ### Model of urllib.parse (external library)

The functions below follow CPython's urlsplit/urlparse/urlunsplit
algorithms on the ASCII range.  Not modelled (irrelevant to the inputs in
this development): removal of C0 control characters, NFKC netloc checks,
and bracketed-host validation beyond the bracket-mismatch ValueError. -/

/-- Lowercase an ASCII letter (Python str.lower on the scheme, which is
ASCII-only once the scheme-character check has passed). -/
def asciiLower (l : List Char) : List Char :=
  l.map (fun c => if 65 ≤ c.toNat && c.toNat ≤ 90 then Char.ofNat (c.toNat + 32) else c)

/-- Characters allowed in a URL scheme (CPython scheme_chars). -/
def isSchemeChar (c : Char) : Bool :=
  isAsciiAlpha c || isAsciiDigit c || c = '+' || c = '-' || c = '.'

/-- Index of the first occurrence of a character, Python str.find. -/
def findChar (c : Char) (l : List Char) : Option Nat :=
  l.findIdx? (fun x => x = c)

/-- Index of the last occurrence of a character, Python str.rfind. -/
def rfindChar (c : Char) (l : List Char) : Option Nat :=
  match findChar c l.reverse with
  | none => none
  | some i => some (l.length - 1 - i)

/-- Python str.find(c, start): first occurrence at index at least start. -/
def findCharFrom (c : Char) (start : Nat) (l : List Char) : Option Nat :=
  (findChar c (l.drop start)).map (fun i => i + start)

/-- Split at the first occurrence of c, dropping it; whole list and empty
tail when c does not occur (Python split(c, 1) with one or two parts). -/
def splitFirst (c : Char) (l : List Char) : List Char × List Char :=
  match findChar c l with
  | none => (l, [])
  | some i => (l.take i, l.drop (i + 1))

/-- CPython _splitnetloc: the netloc runs to the first of / ? #. -/
def splitnetloc (l : List Char) : List Char × List Char :=
  match l.findIdx? (fun c => c = '/' || c = '?' || c = '#') with
  | none => (l, [])
  | some i => (l.take i, l.drop i)

structure UrlSplitResult where
  scheme : List Char
  netloc : List Char
  path : List Char
  query : List Char
  fragment : List Char
deriving DecidableEq

/-- CPython urlsplit: scheme (validated and lowercased), then //netloc,
then #fragment, then ?query; what remains is the path. -/
def urlsplitL (url : List Char) : UrlSplitResult :=
  let sr :=
    match findChar ':' url with
    | some i =>
      if 0 < i && isAsciiAlpha (url.headD ' ') && (url.take i).all isSchemeChar then
        (asciiLower (url.take i), url.drop (i + 1))
      else ([], url)
    | none => ([], url)
  let scheme := sr.1
  let rest := sr.2
  let nr := if rest.take 2 = ['/', '/'] then splitnetloc (rest.drop 2) else ([], rest)
  let netloc := nr.1
  let fr := splitFirst '#' nr.2
  let qr := splitFirst '?' fr.1
  ⟨scheme, netloc, qr.1, qr.2, fr.2⟩

/-- CPython urlsplit raises ValueError when the netloc has an unmatched
square bracket ("Invalid IPv6 URL"). -/
def urlsplitRaises (url : List Char) : Bool :=
  let netloc := (urlsplitL url).netloc
  (netloc.contains '[') != (netloc.contains ']')

/-- CPython _splitparams: parameters after the first ; in the last path
segment. -/
def splitparamsL (url : List Char) : List Char × List Char :=
  match rfindChar '/' url with
  | some j =>
    match findCharFrom ';' j url with
    | none => (url, [])
    | some i => (url.take i, url.drop (i + 1))
  | none =>
    match findChar ';' url with
    | none => (url, [])
    | some i => (url.take i, url.drop (i + 1))

structure UrlParseResult where
  scheme : String
  netloc : String
  path : String
  paramsPart : String
  query : String
  fragment : String
deriving DecidableEq

/-- CPython urlparse, total version (bracket ValueError tracked separately
by urlsplitRaises): urlsplit plus path-parameter separation. -/
def urlparseRaw (url : String) : UrlParseResult :=
  let s := urlsplitL url.data
  let pp := if s.path.contains ';' then splitparamsL s.path else (s.path, [])
  ⟨⟨s.scheme⟩, ⟨s.netloc⟩, ⟨pp.1⟩, ⟨pp.2⟩, ⟨s.query⟩, ⟨s.fragment⟩⟩

/-- CPython urlparse with its ValueError (as used by link_is_wanted, which
catches it). -/
def urlparsePy (url : String) : Except Unit UrlParseResult :=
  if urlsplitRaises url.data then Except.error () else Except.ok (urlparseRaw url)

/-- CPython urlunsplit/urlunparse on a parse result, with the fragment
replaced by the given value (none models Python None, as in
backup.py scrape_links which does _replace(fragment=None)). -/
def urlunparseL (scheme netloc path pp query : List Char) (fragment : Option (List Char)) :
    List Char :=
  let url := if pp ≠ [] then path ++ ';' :: pp else path
  let url :=
    if netloc ≠ [] || url.take 2 = ['/', '/'] then
      '/' :: '/' :: netloc ++ (if url ≠ [] && url.headD ' ' ≠ '/' then '/' :: url else url)
    else url
  let url := if scheme ≠ [] then scheme ++ ':' :: url else url
  let url := if query ≠ [] then url ++ '?' :: query else url
  match fragment with
  | some f => if f ≠ [] then url ++ '#' :: f else url
  | none => url

/-- backup.py scrape_links, per link: discard the fragment component,
urlunparse(urlparse(link)._replace(fragment=None)). -/
def stripFragment (url : String) : String :=
  let p := urlparseRaw url
  ⟨urlunparseL p.scheme.data p.netloc.data p.path.data p.paramsPart.data p.query.data none⟩

/-- Hex digit value for percent-decoding (0-9, a-f, A-F by codepoint). -/
def hexVal (c : Char) : Option Nat :=
  let n := c.toNat
  if 48 ≤ n && n ≤ 57 then some (n - 48)
  else if 97 ≤ n && n ≤ 102 then some (n - 87)
  else if 65 ≤ n && n ≤ 70 then some (n - 55)
  else none

/-- urllib.parse.unquote on the single-byte range: percent-escapes decode
to the escaped byte, malformed escapes are left as-is.  (Multi-byte UTF-8
escape sequences are outside the model; no input in this development uses
them.) -/
def unquoteChars : List Char → List Char
  | [] => []
  | '%' :: a :: b :: rest =>
    (match hexVal a, hexVal b with
     | some x, some y => Char.ofNat (16 * x + y) :: unquoteChars rest
     | _, _ => '%' :: unquoteChars (a :: b :: rest))
  | c :: rest => c :: unquoteChars rest

/-- Python str.split on a separator character: at least one part, the
empty string yields one empty part.  (Structurally recursive with an
accumulator for the current part.) -/
def pySplitAux (c : Char) : List Char → List Char → List (List Char)
  | [], acc => [acc.reverse]
  | x :: rest, acc =>
    if x = c then acc.reverse :: pySplitAux c rest []
    else pySplitAux c rest (x :: acc)

def pySplitChar (c : Char) (l : List Char) : List (List Char) :=
  pySplitAux c l []

/-- backup.py split_url_path: split on / and percent-decode each component. -/
def split_url_path (path : String) : List String :=
  (pySplitChar '/' path.data).map (fun component => ⟨unquoteChars component⟩)

/-- backup.py strip_url_path_prefix. -/
def strip_url_path_prefix (path pre : String) : Option (List String) :=
  strip_prefix (split_url_path path) (split_url_path pre)

/-- backup.py link_is_wanted (owner and repo are free variables of the
enclosing scope in the source; here they are explicit arguments): True
exactly for https URLs on user-images.githubusercontent.com, file
attachments on github.com, and avatars.githubusercontent.com (query string
kept as part of the avatar path). -/
def link_is_wanted (owner repo : String) (url : String) : Bool :=
  match urlparsePy url with
  | Except.error _ => false
  | Except.ok components =>
    (components.scheme == "https" && components.netloc == "user-images.githubusercontent.com"
      && ( strip_url_path_prefix components.path "").isSome)
    || (components.scheme == "https" && components.netloc == "github.com"
      && (( strip_url_path_prefix components.path
              ("/" ++ owner ++ "/" ++ repo ++ "/files")).isSome
        || ( strip_url_path_prefix components.path "/user-attachments/files").isSome))
    || (components.scheme == "https" && components.netloc == "avatars.githubusercontent.com"
      && ( strip_url_path_prefix
            (if components.query ≠ "" then components.path ++ "?" ++ components.query
             else components.path) "").isSome)

/-- backup.py url_origin: the (scheme, netloc) pair. -/
def url_origin (url : String) : String × String :=
  ((urlparseRaw url).scheme, (urlparseRaw url).netloc)

/-! ### Rate-limited fetcher (backup.py rate_limit_reset and get)

A response is modelled by its status code, reason phrase, the two rate
limit headers (absent or a raw string, as in requests' header dict), and
the parsed Date header as an epoch timestamp (response_datetime in the
source; it stands for the current time when the response was produced). -/

structure Response where
  status_code : Nat
  reason : String
  x_ratelimit_remaining : Option String
  x_ratelimit_reset : Option String
  date : Int
deriving DecidableEq

/-- Result of rate_limit_reset: the reset timestamp when rate limited,
none when not, or the uncaught exception the source can raise (KeyError
when x-ratelimit-reset is missing, ValueError when it does not parse;
the source comments that it assumes the header is present). -/
inductive RlResult
  | ok (v : Option Int)
  | keyError
  | valueError
deriving DecidableEq

/-- backup.py rate_limit_reset: a rate-limited response is one with status
code 403, an x-ratelimit-remaining header parsing to an integer that is
not positive, and an x-ratelimit-reset header giving the reset time.
A remaining header that is absent or fails int() is not rate limited
(the ValueError is caught and treated as not-rate-limited). -/
def rate_limit_reset (r : Response) : RlResult :=
  if r.status_code ≠ 403 then RlResult.ok none
  else
    match r.x_ratelimit_remaining with
    | none => RlResult.ok none
    | some remaining =>
      match pyInt remaining with
      | none => RlResult.ok none
      | some n =>
        if n > 0 then RlResult.ok none
        else
          match r.x_ratelimit_reset with
          | none => RlResult.keyError
          | some reset =>
            match pyInt reset with
            | none => RlResult.valueError
            | some t => RlResult.ok (some t)

/-- Outcome of one loop iteration of backup.py get once the response is
in hand: requests' raise_for_status raises for status codes in [400, 600),
otherwise the response is returned. -/
inductive GetOutcome
  | success (r : Response)
  | httpError (status : Nat) (reason : String)
  | headerException
deriving DecidableEq

inductive StepResult
  | retryAfter (sleep : Int)
  | done (o : GetOutcome)
deriving DecidableEq

/-- One iteration of the while-true loop in backup.py get: when
rate_limit_reset yields a reset time, sleep reset minus the response date
and go around again; otherwise raise_for_status and return. -/
def getStep (r : Response) : StepResult :=
  match rate_limit_reset r with
  | RlResult.keyError => StepResult.done GetOutcome.headerException
  | RlResult.valueError => StepResult.done GetOutcome.headerException
  | RlResult.ok (some t) => StepResult.retryAfter (t - r.date)
  | RlResult.ok none =>
    if 400 ≤ r.status_code && r.status_code < 600 then
      StepResult.done (GetOutcome.httpError r.status_code r.reason)
    else StepResult.done (GetOutcome.success r)

/-- The loop of backup.py get, driven by the sequence of responses the
server returns to the repeated identical request: the sleeps performed,
and the outcome (none while every response so far was rate limited, i.e.
the loop is still running). -/
def getRun : List Response → List Int × Option GetOutcome
  | [] => ([], none)
  | r :: rs =>
    match getStep r with
    | StepResult.retryAfter t =>
      let p := getRun rs
      (t :: p.1, p.2)
    | StepResult.done o => ([], some o)

/-- The sleep get performs on a rate-limited response. -/
def sleepOf (r : Response) : Int :=
  match rate_limit_reset r with
  | RlResult.ok (some t) => t - r.date
  | _ => 0

/-- A response that takes the retry path. -/
def isRateLimited (r : Response) : Bool :=
  match rate_limit_reset r with
  | RlResult.ok (some _) => true
  | _ => false

theorem getStep_retry_iff (r : Response) :
    (∃ t, rate_limit_reset r = RlResult.ok (some t) ∧ getStep r = StepResult.retryAfter (t - r.date))
      ↔ isRateLimited r = true := by
  unfold isRateLimited getStep
  cases h : rate_limit_reset r with
  | ok v =>
    cases v with
    | none => simp
    | some t => simp
  | keyError => simp
  | valueError => simp

theorem getRun_all_rate_limited (rs : List Response)
    (h : ∀ r ∈ rs, isRateLimited r = true) :
    getRun rs = (rs.map sleepOf, none) := by
  induction rs with
  | nil => rfl
  | cons r rest ih =>
    have hr : isRateLimited r = true := h r (List.mem_cons_self r rest)
    unfold getRun
    unfold isRateLimited at hr
    cases hrr : rate_limit_reset r with
    | ok v =>
      cases v with
      | none => rw [hrr] at hr; simp at hr
      | some t =>
        have : getStep r = StepResult.retryAfter (t - r.date) := by
          unfold getStep; rw [hrr]
        rw [this]
        have hrest := ih (fun x hx => h x (List.mem_cons_of_mem r hx))
        rw [hrest]
        simp [sleepOf, hrr]
    | keyError => rw [hrr] at hr; simp at hr
    | valueError => rw [hrr] at hr; simp at hr

theorem getStep_retry_rl (r : Response) (t : Int)
    (h : getStep r = StepResult.retryAfter t) : isRateLimited r = true := by
  unfold isRateLimited
  unfold getStep at h
  cases hrr : rate_limit_reset r with
  | ok v =>
    rw [hrr] at h
    cases v with
    | none =>
      exfalso
      by_cases hc : (400 ≤ r.status_code && r.status_code < 600) = true
      · simp [hc] at h
      · simp [hc] at h
    | some u => simp
  | keyError => rw [hrr] at h; simp at h
  | valueError => rw [hrr] at h; simp at h

theorem getRun_first_decides (pre : List Response) (r : Response) (rest : List Response)
    (hpre : ∀ x ∈ pre, isRateLimited x = true)
    (hr : isRateLimited r = false) :
    getRun (pre ++ r :: rest) = (pre.map sleepOf, (getRun [r]).2) := by
  induction pre with
  | nil =>
    simp only [List.nil_append, List.map_nil]
    cases hs : getStep r with
    | retryAfter t => exact absurd (getStep_retry_rl r t hs) (by rw [hr]; simp)
    | done o => simp [getRun, hs]
  | cons x pre ih =>
    have hx : isRateLimited x = true := hpre x (List.mem_cons_self x pre)
    unfold isRateLimited at hx
    cases hrr : rate_limit_reset x with
    | ok v =>
      cases v with
      | none => rw [hrr] at hx; simp at hx
      | some t =>
        have hs : getStep x = StepResult.retryAfter (t - x.date) := by
          unfold getStep; rw [hrr]
        simp only [List.cons_append, List.map_cons]
        unfold getRun
        rw [hs]
        rw [ih (fun y hy => hpre y (List.mem_cons_of_mem x hy))]
        simp only [sleepOf, hrr, Prod.mk.injEq, List.cons.injEq, true_and, and_true]
        cases hs2 : getStep r <;> simp [getRun, hs2]
    | keyError => rw [hrr] at hx; simp at hx
    | valueError => rw [hrr] at hx; simp at hx

/-- C3: the fetcher retries (sleeping reset time minus the response's
date, i.e. the current time as reported by the server) exactly on a
response that rate_limit_reset recognises as rate limited; it never
surfaces a run of rate-limited responses as a failure, keeps retrying
until the first non-rate-limited response, which alone decides the
outcome; and a non-rate-limited response with an error status fails
immediately carrying the status and reason. -/
theorem get_retry_semantics :
    (∀ r : Response, (∃ t, rate_limit_reset r = RlResult.ok (some t)
        ∧ getStep r = StepResult.retryAfter (t - r.date)) ↔ isRateLimited r = true)
    ∧ (∀ r : Response, rate_limit_reset r = RlResult.ok none →
        400 ≤ r.status_code → r.status_code < 600 →
        getStep r = StepResult.done (GetOutcome.httpError r.status_code r.reason))
    ∧ (∀ rs : List Response, (∀ r ∈ rs, isRateLimited r = true) →
        getRun rs = (rs.map sleepOf, none))
    ∧ (∀ (pre : List Response) (r : Response) (rest : List Response),
        (∀ x ∈ pre, isRateLimited x = true) → isRateLimited r = false →
        getRun (pre ++ r :: rest) = (pre.map sleepOf, (getRun [r]).2)) := by
  refine ⟨getStep_retry_iff, ?_, getRun_all_rate_limited, getRun_first_decides⟩
  intro r hnone h4 h6
  unfold getStep
  rw [hnone]
  have hc : (400 ≤ r.status_code && r.status_code < 600) = true := by
    simp only [Bool.and_eq_true, decide_eq_true_eq]
    exact ⟨h4, h6⟩
  simp [hc]

/-- Witness for C3 at concrete responses: a 502 fails at once with its
status and reason; a run of two rate-limited responses (403, remaining 0,
reset times 100 and 200, at dates 40 and 150) sleeps 60 then 50 and is
still retrying, surfacing no failure. -/
theorem get_retry_semantics_witness :
    getStep (Response.mk 502 ("Bad Gateway") none none 0)
        = StepResult.done (GetOutcome.httpError 502 ("Bad Gateway"))
    ∧ getRun [Response.mk 403 ("x") (some ("0")) (some ("100")) 40,
              Response.mk 403 ("x") (some ("0")) (some ("200")) 150] = ([60, 50], none) := by
  refine ⟨?_, ?_⟩
  · exact get_retry_semantics.2.1 (Response.mk 502 ("Bad Gateway") none none 0) (by decide)
      (by decide) (by decide)
  · exact get_retry_semantics.2.2.1 _ (by decide)

/-- C9: on a 403, a missing or unparseable x-ratelimit-remaining header
means no retry, an immediate HTTP error with the status and reason; the
retry path is taken exactly when the header parses to an integer that is
zero or negative (given the reset header, which the source assumes). -/
theorem rate_limit_header_semantics :
    (∀ r : Response, r.status_code = 403 → r.x_ratelimit_remaining = none →
        getStep r = StepResult.done (GetOutcome.httpError 403 r.reason))
    ∧ (∀ (r : Response) (s : String), r.status_code = 403 →
        r.x_ratelimit_remaining = some s → pyInt s = none →
        getStep r = StepResult.done (GetOutcome.httpError 403 r.reason))
    ∧ (∀ (r : Response) (s rst : String) (n t : Int), r.status_code = 403 →
        r.x_ratelimit_remaining = some s → pyInt s = some n → n ≤ 0 →
        r.x_ratelimit_reset = some rst → pyInt rst = some t →
        getStep r = StepResult.retryAfter (t - r.date))
    ∧ (∀ (r : Response) (s : String) (n : Int), r.status_code = 403 →
        r.x_ratelimit_remaining = some s → pyInt s = some n → 0 < n →
        getStep r = StepResult.done (GetOutcome.httpError 403 r.reason)) := by
  refine ⟨?_, ?_, ?_, ?_⟩
  · intro r h403 hrem
    have hrl : rate_limit_reset r = RlResult.ok none := by
      simp [rate_limit_reset, h403, hrem]
    simp [getStep, hrl, h403]
  · intro r s h403 hrem hs
    have hrl : rate_limit_reset r = RlResult.ok none := by
      simp [rate_limit_reset, h403, hrem, hs]
    simp [getStep, hrl, h403]
  · intro r s rst n t h403 hrem hs hn hrst ht
    have hrl : rate_limit_reset r = RlResult.ok (some t) := by
      simp [rate_limit_reset, h403, hrem, hs, hrst, ht, show ¬ n > 0 by omega]
    simp [getStep, hrl]
  · intro r s n h403 hrem hs hn
    have hrl : rate_limit_reset r = RlResult.ok none := by
      simp [rate_limit_reset, h403, hrem, hs, hn]
    simp [getStep, hrl, h403]

/-- Witness for C9 at concrete responses: a 403 with no remaining header
errors at once; remaining abc errors at once; remaining -2 (negative)
with reset 100 at date 40 sleeps 60 and retries; remaining 5 errors at
once. -/
theorem rate_limit_header_semantics_witness :
    getStep (Response.mk 403 ("Forbidden") none none 0)
        = StepResult.done (GetOutcome.httpError 403 ("Forbidden"))
    ∧ getStep (Response.mk 403 ("Forbidden") (some ("abc")) none 0)
        = StepResult.done (GetOutcome.httpError 403 ("Forbidden"))
    ∧ getStep (Response.mk 403 ("Forbidden") (some ("-2")) (some ("100")) 40)
        = StepResult.retryAfter 60
    ∧ getStep (Response.mk 403 ("Forbidden") (some ("5")) (some ("100")) 40)
        = StepResult.done (GetOutcome.httpError 403 ("Forbidden")) := by
  refine ⟨?_, ?_, ?_, ?_⟩
  · exact rate_limit_header_semantics.1 _ (by decide) (by decide)
  · exact rate_limit_header_semantics.2.1 _ ("abc") (by decide) (by decide) (by decide)
  · exact rate_limit_header_semantics.2.2.1 _ ("-2") ("100") (-2) 100 (by decide) (by decide)
      (by decide) (by decide) (by decide) (by decide)
  · exact rate_limit_header_semantics.2.2.2 _ ("5") 5 (by decide) (by decide) (by decide)
      (by decide)

/-! ### Paginator (backup.py get_paginated)

The linked page sequence is modelled by a function giving each page's
"next" link (requests' r.links.get("next")); the fetch itself is
url-level.  The loop yields the current page, then, if a next link
exists, asserts check_url_origin(url, next_url) — comparing the
(scheme, netloc) pairs of the CURRENT page URL and the next link — and
continues from the next link.  Fuel bounds the recursion; the source
loop is unbounded. -/

inductive PagResult
  | finished (fetched : List String)
  | originMismatch (base next : String) (fetched : List String)
  | outOfFuel (fetched : List String)
deriving DecidableEq

/-- The page URLs a pagination outcome actually fetched, in order. -/
def fetchedOf : PagResult → List String
  | PagResult.finished l => l
  | PagResult.originMismatch _ _ l => l
  | PagResult.outOfFuel l => l

/-- backup.py get_paginated over the next-link map. -/
def get_paginated (next : String → Option String) : Nat → String → PagResult
  | 0, _ => PagResult.outOfFuel []
  | fuel + 1, url =>
    match next url with
    | none => PagResult.finished [url]
    | some nu =>
      if url_origin nu = url_origin url then
        match get_paginated next fuel nu with
        | PagResult.finished l => PagResult.finished (url :: l)
        | PagResult.originMismatch b n l => PagResult.originMismatch b n (url :: l)
        | PagResult.outOfFuel l => PagResult.outOfFuel (url :: l)
      else PagResult.originMismatch url nu [url]

theorem get_paginated_origin_invariant (next : String → Option String) :
    ∀ (fuel : Nat) (url u : String),
      u ∈ fetchedOf (get_paginated next fuel url) → url_origin u = url_origin url := by
  intro fuel
  induction fuel with
  | zero => intro url u h; simp [get_paginated, fetchedOf] at h
  | succ fuel ih =>
    intro url u h
    unfold get_paginated at h
    cases hn : next url with
    | none =>
      rw [hn] at h
      simp [fetchedOf] at h
      rw [h]
    | some nu =>
      rw [hn] at h
      simp only [] at h
      by_cases ho : url_origin nu = url_origin url
      · rw [if_pos ho] at h
        cases hrec : get_paginated next fuel nu with
        | finished l =>
          rw [hrec] at h
          simp [fetchedOf] at h
          cases h with
          | inl h => rw [h]
          | inr h =>
            have := ih nu u (by rw [hrec]; exact h)
            rw [this, ho]
        | originMismatch b n l =>
          rw [hrec] at h
          simp [fetchedOf] at h
          cases h with
          | inl h => rw [h]
          | inr h =>
            have := ih nu u (by rw [hrec]; exact h)
            rw [this, ho]
        | outOfFuel l =>
          rw [hrec] at h
          simp [fetchedOf] at h
          cases h with
          | inl h => rw [h]
          | inr h =>
            have := ih nu u (by rw [hrec]; exact h)
            rw [this, ho]
      · rw [if_neg ho] at h
        simp [fetchedOf] at h
        rw [h]

/-- C4: every page the Paginator fetches has the scheme and host of the
original request, and a next link whose origin differs from the current
page's origin stops the walk at once with an origin-mismatch failure,
nothing further fetched. -/
theorem paginator_origin_safety :
    (∀ (next : String → Option String) (fuel : Nat) (url u : String),
        u ∈ fetchedOf (get_paginated next fuel url) → url_origin u = url_origin url)
    ∧ (∀ (next : String → Option String) (fuel : Nat) (url nu : String),
        next url = some nu → url_origin nu ≠ url_origin url →
        get_paginated next (fuel + 1) url = PagResult.originMismatch url nu [url]) := by
  constructor
  · intro next fuel
    exact get_paginated_origin_invariant next fuel
  · intro next fuel url nu hn ho
    unfold get_paginated
    rw [hn]
    simp only []
    rw [if_neg ho]

/-- A concrete three-page walk for the C4 witness: pageA links to pageB on
the same origin, pageB links to an URL on another host. -/
def demoNext (u : String) : Option String :=
  if u == "https://api.github.com/repos/o/r/issues" then
    some ("https://api.github.com/repositories/1/issues?page=2")
  else if u == "https://api.github.com/repositories/1/issues?page=2" then
    some ("https://evil.example.com/repositories/1/issues?page=3")
  else none

/-- Witness for C4: in the concrete walk the second fetched page has the
origin of the first, and the mismatching next link makes the paginator
fail with an origin mismatch having fetched only the two same-origin
pages. -/
theorem paginator_origin_safety_witness :
    url_origin ("https://api.github.com/repositories/1/issues?page=2")
        = url_origin ("https://api.github.com/repos/o/r/issues")
    ∧ get_paginated demoNext 5 ("https://api.github.com/repos/o/r/issues")
        = PagResult.originMismatch ("https://api.github.com/repositories/1/issues?page=2")
            ("https://evil.example.com/repositories/1/issues?page=3")
            ["https://api.github.com/repos/o/r/issues",
             "https://api.github.com/repositories/1/issues?page=2"] := by
  constructor
  · exact paginator_origin_safety.1 demoNext 5 ("https://api.github.com/repos/o/r/issues")
      ("https://api.github.com/repositories/1/issues?page=2") (by decide)
  · have h4 := paginator_origin_safety.2 demoNext 4
      ("https://api.github.com/repositories/1/issues?page=2")
      ("https://evil.example.com/repositories/1/issues?page=3") (by decide) (by decide)
    decide

/-! ### Durable record store (backup.py create_tables and the commit
transactions in backup)

The database is a record of six tables.  Per create_tables, the id
columns of issues/comments/labels and the reaction tables are UNIQUE;
the files table has a url column with NO uniqueness constraint.

A record commit in backup is one SQLite transaction (db.execute("BEGIN")
followed by the with-db block): INSERT a row whose blob is
zeroblob(len(body)), then overwrite that row's blob with the body via
blobopen (addressed by the lastrowid, i.e. the row just inserted), and,
for issues and comments, INSERT the record's reactions.  SQLite's
journal makes the transaction all-or-nothing, so the states a crash can
expose are exactly the states at transaction boundaries: `crashStates`
below. -/

structure Store where
  issues : List (Int × Blob)
  comments : List (Int × Blob)
  labels : List (Int × Blob)
  issue_reactions : List (Int × Int × Blob)
  comment_reactions : List (Int × Int × Blob)
  files : List (String × Blob)
deriving DecidableEq

def emptyStore : Store := ⟨[], [], [], [], [], []⟩

inductive RecCol
  | issues
  | comments
  | labels
deriving DecidableEq

/-- Micro-operations inside a commit transaction. -/
inductive Op
  | insRec (c : RecCol) (id : Int) (b : Blob)
  | writeRec (c : RecCol) (id : Int) (b : Blob)
  | insIssueReaction (id parent : Int) (b : Blob)
  | insCommentReaction (id parent : Int) (b : Blob)
  | insFile (url : String) (b : Blob)
  | writeFile (url : String) (b : Blob)
deriving DecidableEq

def tableOf (s : Store) : RecCol → List (Int × Blob)
  | RecCol.issues => s.issues
  | RecCol.comments => s.comments
  | RecCol.labels => s.labels

def setTable (s : Store) (c : RecCol) (t : List (Int × Blob)) : Store :=
  match c with
  | RecCol.issues => { s with issues := t }
  | RecCol.comments => { s with comments := t }
  | RecCol.labels => { s with labels := t }

/-- Overwrite the blob of the most recently inserted row with the given
key (blobopen addresses the row by lastrowid; in the source the write
always immediately follows the insert of that row). -/
def blobWriteLast {κ : Type} [DecidableEq κ] (k : κ) (b : Blob) :
    List (κ × Blob) → List (κ × Blob)
  | [] => []
  | row :: rest =>
    if rest.any (fun x => decide (x.1 = k)) then row :: blobWriteLast k b rest
    else if row.1 = k then (k, b) :: rest
    else row :: rest

def applyOp (s : Store) : Op → Store
  | Op.insRec c id b => setTable s c (tableOf s c ++ [(id, b)])
  | Op.writeRec c id b => setTable s c (blobWriteLast id b (tableOf s c))
  | Op.insIssueReaction id parent b =>
    { s with issue_reactions := s.issue_reactions ++ [(id, parent, b)] }
  | Op.insCommentReaction id parent b =>
    { s with comment_reactions := s.comment_reactions ++ [(id, parent, b)] }
  | Op.insFile url b => { s with files := s.files ++ [(url, b)] }
  | Op.writeFile url b => { s with files := blobWriteLast url b s.files }

/-- Run a whole committed transaction. -/
def applyTx (s : Store) (ops : List Op) : Store := ops.foldl applyOp s

/-- Run a sequence of committed transactions. -/
def applyTxs (s : Store) (txs : List (List Op)) : Store := txs.foldl applyTx s

/-- The visible states after a crash at an arbitrary point of a sequence
of transactions: every uncommitted transaction is rolled back whole, so
the possible states are exactly the transaction-boundary prefixes. -/
def crashStates (s : Store) (txs : List (List Op)) : List Store :=
  (List.range (txs.length + 1)).map (fun t => applyTxs s (txs.take t))

/-- zeroblob(n): the placeholder blob a row is created with. -/
def zeroBlob (n : Nat) : Blob := List.replicate n 0

/-- The commit transaction for one issue (backup.py lines 237-261):
placeholder insert, blob overwrite, then the issue's reactions. -/
def txIssue (id : Int) (body : Blob) (reactions : List (Int × Blob)) : List Op :=
  Op.insRec RecCol.issues id (zeroBlob body.length)
    :: Op.writeRec RecCol.issues id body
    :: reactions.map (fun rb => Op.insIssueReaction rb.1 id rb.2)

/-- The commit transaction for one comment (backup.py lines 274-298). -/
def txComment (id : Int) (body : Blob) (reactions : List (Int × Blob)) : List Op :=
  Op.insRec RecCol.comments id (zeroBlob body.length)
    :: Op.writeRec RecCol.comments id body
    :: reactions.map (fun rb => Op.insCommentReaction rb.1 id rb.2)

/-- The commit transaction for one label (backup.py lines 312-323). -/
def txLabel (id : Int) (body : Blob) : List Op :=
  [Op.insRec RecCol.labels id (zeroBlob body.length),
   Op.writeRec RecCol.labels id body]

/-- The commit transaction for one file (backup.py lines 348-359). -/
def txFile (url : String) (body : Blob) : List Op :=
  [Op.insFile url (zeroBlob body.length), Op.writeFile url body]

/-- Presence check: SELECT NULL FROM t WHERE id = :id, fetchone() is
truthy exactly when some row has the key. -/
def tblExists {κ : Type} [DecidableEq κ] (t : List (κ × Blob)) (k : κ) : Bool :=
  t.any (fun row => decide (row.1 = k))

/-- Body lookup for a key (first matching row). -/
def tblLookup {κ : Type} [DecidableEq κ] (t : List (κ × Blob)) (k : κ) : Option Blob :=
  (t.find? (fun row => decide (row.1 = k))).map (fun row => row.2)

theorem blobWriteLast_append_fresh {κ : Type} [DecidableEq κ]
    (t : List (κ × Blob)) (k : κ) (b z : Blob) (h : tblExists t k = false) :
    blobWriteLast k b (t ++ [(k, z)]) = t ++ [(k, b)] := by
  induction t with
  | nil => simp [blobWriteLast]
  | cons row rest ih =>
    unfold tblExists at h
    simp only [List.any_cons, Bool.or_eq_false_iff] at h
    rw [List.cons_append, blobWriteLast]
    have hany : ((rest ++ [(k, z)]).any fun x => decide (x.1 = k)) = true := by
      simp
    simp [hany, ih h.2]

theorem tblLookup_append_fresh {κ : Type} [DecidableEq κ]
    (t : List (κ × Blob)) (k : κ) (b : Blob) (h : tblExists t k = false) :
    tblLookup (t ++ [(k, b)]) k = some b := by
  induction t with
  | nil => simp [tblLookup, List.find?]
  | cons row rest ih =>
    unfold tblExists at h
    simp only [List.any_cons, Bool.or_eq_false_iff] at h
    unfold tblLookup
    rw [List.cons_append]
    rw [List.find?_cons_of_neg]
    · exact ih h.2
    · simp only [decide_eq_true_eq]
      intro hc
      rw [hc] at h
      simp at h

theorem tblExists_lookup_none {κ : Type} [DecidableEq κ]
    (t : List (κ × Blob)) (k : κ) (h : tblExists t k = false) :
    tblLookup t k = none := by
  unfold tblExists at h
  unfold tblLookup
  have hf : t.find? (fun row => decide (row.1 = k)) = none := by
    rw [List.find?_eq_none]
    intro x hx
    simp only [decide_eq_true_eq]
    intro hc
    have ht : (t.any fun row => decide (row.1 = k)) = true :=
      List.any_eq_true.mpr ⟨x, hx, by simp [hc]⟩
    rw [ht] at h
    cases h
  rw [hf]
  rfl

theorem reactions_fold_issues_table (i : Int) (reactions : List (Int × Blob)) :
    ∀ s : Store,
      ((reactions.map (fun rb => Op.insIssueReaction rb.1 i rb.2)).foldl applyOp s).issues
        = s.issues := by
  induction reactions with
  | nil => intro s; rfl
  | cons rb rest ih =>
    intro s
    simp only [List.map_cons, List.foldl_cons]
    rw [ih]
    rfl

/-! Footprints: which table an operation writes. -/

def opTouchesIssues : Op → Bool
  | Op.insRec RecCol.issues _ _ => true
  | Op.writeRec RecCol.issues _ _ => true
  | _ => false

def opTouchesComments : Op → Bool
  | Op.insRec RecCol.comments _ _ => true
  | Op.writeRec RecCol.comments _ _ => true
  | _ => false

def opTouchesLabels : Op → Bool
  | Op.insRec RecCol.labels _ _ => true
  | Op.writeRec RecCol.labels _ _ => true
  | _ => false

def opTouchesFiles : Op → Bool
  | Op.insFile _ _ => true
  | Op.writeFile _ _ => true
  | _ => false

theorem applyOp_issues_frame (s : Store) (op : Op) (h : opTouchesIssues op = false) :
    (applyOp s op).issues = s.issues := by
  cases op with
  | insRec c id b =>
    cases c with
    | issues => simp [opTouchesIssues] at h
    | comments => rfl
    | labels => rfl
  | writeRec c id b =>
    cases c with
    | issues => simp [opTouchesIssues] at h
    | comments => rfl
    | labels => rfl
  | insIssueReaction a p b => rfl
  | insCommentReaction a p b => rfl
  | insFile u b => rfl
  | writeFile u b => rfl

theorem applyOp_comments_frame (s : Store) (op : Op) (h : opTouchesComments op = false) :
    (applyOp s op).comments = s.comments := by
  cases op with
  | insRec c id b =>
    cases c with
    | issues => rfl
    | comments => simp [opTouchesComments] at h
    | labels => rfl
  | writeRec c id b =>
    cases c with
    | issues => rfl
    | comments => simp [opTouchesComments] at h
    | labels => rfl
  | insIssueReaction a p b => rfl
  | insCommentReaction a p b => rfl
  | insFile u b => rfl
  | writeFile u b => rfl

theorem applyOp_labels_frame (s : Store) (op : Op) (h : opTouchesLabels op = false) :
    (applyOp s op).labels = s.labels := by
  cases op with
  | insRec c id b =>
    cases c with
    | issues => rfl
    | comments => rfl
    | labels => simp [opTouchesLabels] at h
  | writeRec c id b =>
    cases c with
    | issues => rfl
    | comments => rfl
    | labels => simp [opTouchesLabels] at h
  | insIssueReaction a p b => rfl
  | insCommentReaction a p b => rfl
  | insFile u b => rfl
  | writeFile u b => rfl

theorem applyOp_files_frame (s : Store) (op : Op) (h : opTouchesFiles op = false) :
    (applyOp s op).files = s.files := by
  cases op with
  | insRec c id b => cases c <;> rfl
  | writeRec c id b => cases c <;> rfl
  | insIssueReaction a p b => rfl
  | insCommentReaction a p b => rfl
  | insFile u b => simp [opTouchesFiles] at h
  | writeFile u b => simp [opTouchesFiles] at h

theorem applyTx_issues_frame (ops : List Op) :
    ∀ s : Store, (∀ op ∈ ops, opTouchesIssues op = false) →
      (applyTx s ops).issues = s.issues := by
  induction ops with
  | nil => intro s _; rfl
  | cons op rest ih =>
    intro s h
    unfold applyTx
    rw [List.foldl_cons]
    have := ih (applyOp s op) (fun x hx => h x (List.mem_cons_of_mem op hx))
    unfold applyTx at this
    rw [this, applyOp_issues_frame s op (h op (List.mem_cons_self op rest))]

theorem applyTx_comments_frame (ops : List Op) :
    ∀ s : Store, (∀ op ∈ ops, opTouchesComments op = false) →
      (applyTx s ops).comments = s.comments := by
  induction ops with
  | nil => intro s _; rfl
  | cons op rest ih =>
    intro s h
    unfold applyTx
    rw [List.foldl_cons]
    have := ih (applyOp s op) (fun x hx => h x (List.mem_cons_of_mem op hx))
    unfold applyTx at this
    rw [this, applyOp_comments_frame s op (h op (List.mem_cons_self op rest))]

theorem applyTx_labels_frame (ops : List Op) :
    ∀ s : Store, (∀ op ∈ ops, opTouchesLabels op = false) →
      (applyTx s ops).labels = s.labels := by
  induction ops with
  | nil => intro s _; rfl
  | cons op rest ih =>
    intro s h
    unfold applyTx
    rw [List.foldl_cons]
    have := ih (applyOp s op) (fun x hx => h x (List.mem_cons_of_mem op hx))
    unfold applyTx at this
    rw [this, applyOp_labels_frame s op (h op (List.mem_cons_self op rest))]

theorem applyTx_files_frame (ops : List Op) :
    ∀ s : Store, (∀ op ∈ ops, opTouchesFiles op = false) →
      (applyTx s ops).files = s.files := by
  induction ops with
  | nil => intro s _; rfl
  | cons op rest ih =>
    intro s h
    unfold applyTx
    rw [List.foldl_cons]
    have := ih (applyOp s op) (fun x hx => h x (List.mem_cons_of_mem op hx))
    unfold applyTx at this
    rw [this, applyOp_files_frame s op (h op (List.mem_cons_self op rest))]

/-! Effect of each commit transaction on its own table. -/

theorem txIssue_issues (s : Store) (id : Int) (body : Blob)
    (reactions : List (Int × Blob)) (h : tblExists s.issues id = false) :
    (applyTx s (txIssue id body reactions)).issues = s.issues ++ [(id, body)] := by
  unfold txIssue
  unfold applyTx
  simp only [List.foldl_cons]
  have hfold :
      ∀ s3 : Store,
        ((reactions.map (fun rb => Op.insIssueReaction rb.1 id rb.2)).foldl applyOp s3).issues
          = s3.issues := reactions_fold_issues_table id reactions
  rw [hfold]
  simp only [applyOp, tableOf, setTable]
  exact blobWriteLast_append_fresh s.issues id body (zeroBlob body.length) h

theorem comment_reactions_fold_comments_table (i : Int) (reactions : List (Int × Blob)) :
    ∀ s : Store,
      ((reactions.map (fun rb => Op.insCommentReaction rb.1 i rb.2)).foldl applyOp s).comments
        = s.comments := by
  induction reactions with
  | nil => intro s; rfl
  | cons rb rest ih =>
    intro s
    simp only [List.map_cons, List.foldl_cons]
    rw [ih]
    rfl

theorem txComment_comments (s : Store) (id : Int) (body : Blob)
    (reactions : List (Int × Blob)) (h : tblExists s.comments id = false) :
    (applyTx s (txComment id body reactions)).comments = s.comments ++ [(id, body)] := by
  unfold txComment
  unfold applyTx
  simp only [List.foldl_cons]
  rw [comment_reactions_fold_comments_table]
  simp only [applyOp, tableOf, setTable]
  exact blobWriteLast_append_fresh s.comments id body (zeroBlob body.length) h

theorem txLabel_labels (s : Store) (id : Int) (body : Blob)
    (h : tblExists s.labels id = false) :
    (applyTx s (txLabel id body)).labels = s.labels ++ [(id, body)] := by
  unfold txLabel applyTx
  simp only [List.foldl_cons, List.foldl_nil]
  simp only [applyOp, tableOf, setTable]
  exact blobWriteLast_append_fresh s.labels id body (zeroBlob body.length) h

theorem txFile_files (s : Store) (url : String) (body : Blob)
    (h : tblExists s.files url = false) :
    (applyTx s (txFile url body)).files = s.files ++ [(url, body)] := by
  unfold txFile applyTx
  simp only [List.foldl_cons, List.foldl_nil]
  simp only [applyOp]
  exact blobWriteLast_append_fresh s.files url body (zeroBlob body.length) h

theorem tblExists_append_self {κ : Type} [DecidableEq κ]
    (t : List (κ × Blob)) (k : κ) (b : Blob) :
    tblExists (t ++ [(k, b)]) k = true := by
  simp [tblExists]

theorem crashStates_single (s : Store) (tx : List Op) :
    crashStates s [tx] = [s, applyTx s tx] := rfl

/-- C1: for every record commit transaction (issues with their reactions,
comments with their reactions, labels, files), every state a crash can
expose satisfies: if the presence-check sees the record, its body is the
complete fetched body (never the zeroblob placeholder written first inside
the transaction); if a body exists for the key, the presence-check sees
it; and any reaction row beyond the pre-state only appears together with
its parent's complete body. -/
theorem record_commit_atomic :
    (∀ (s : Store) (id : Int) (body : Blob) (reactions : List (Int × Blob)),
      tblExists s.issues id = false →
      ∀ s2 ∈ crashStates s [txIssue id body reactions],
        (tblExists s2.issues id = true → tblLookup s2.issues id = some body)
        ∧ (tblLookup s2.issues id ≠ none → tblExists s2.issues id = true)
        ∧ (∀ rr ∈ s2.issue_reactions, rr ∈ s.issue_reactions
            ∨ tblLookup s2.issues id = some body))
    ∧ (∀ (s : Store) (id : Int) (body : Blob) (reactions : List (Int × Blob)),
      tblExists s.comments id = false →
      ∀ s2 ∈ crashStates s [txComment id body reactions],
        (tblExists s2.comments id = true → tblLookup s2.comments id = some body)
        ∧ (tblLookup s2.comments id ≠ none → tblExists s2.comments id = true)
        ∧ (∀ rr ∈ s2.comment_reactions, rr ∈ s.comment_reactions
            ∨ tblLookup s2.comments id = some body))
    ∧ (∀ (s : Store) (id : Int) (body : Blob),
      tblExists s.labels id = false →
      ∀ s2 ∈ crashStates s [txLabel id body],
        (tblExists s2.labels id = true → tblLookup s2.labels id = some body)
        ∧ (tblLookup s2.labels id ≠ none → tblExists s2.labels id = true))
    ∧ (∀ (s : Store) (url : String) (body : Blob),
      tblExists s.files url = false →
      ∀ s2 ∈ crashStates s [txFile url body],
        (tblExists s2.files url = true → tblLookup s2.files url = some body)
        ∧ (tblLookup s2.files url ≠ none → tblExists s2.files url = true)) := by
  refine ⟨?_, ?_, ?_, ?_⟩
  · intro s id body reactions h s2 hs2
    rw [crashStates_single] at hs2
    simp only [List.mem_cons, List.mem_singleton, List.not_mem_nil, or_false] at hs2
    cases hs2 with
    | inl he =>
      rw [he]
      refine ⟨?_, ?_, ?_⟩
      · intro ht; rw [h] at ht; cases ht
      · intro hne; exact absurd (tblExists_lookup_none s.issues id h) hne
      · intro rr hrr; exact Or.inl hrr
    | inr he =>
      rw [he]
      have hi := txIssue_issues s id body reactions h
      have hl : tblLookup (applyTx s (txIssue id body reactions)).issues id = some body := by
        rw [hi]; exact tblLookup_append_fresh s.issues id body h
      refine ⟨fun _ => hl, ?_, ?_⟩
      · intro _; rw [hi]; exact tblExists_append_self s.issues id body
      · intro rr hrr; exact Or.inr hl
  · intro s id body reactions h s2 hs2
    rw [crashStates_single] at hs2
    simp only [List.mem_cons, List.mem_singleton, List.not_mem_nil, or_false] at hs2
    cases hs2 with
    | inl he =>
      rw [he]
      refine ⟨?_, ?_, ?_⟩
      · intro ht; rw [h] at ht; cases ht
      · intro hne; exact absurd (tblExists_lookup_none s.comments id h) hne
      · intro rr hrr; exact Or.inl hrr
    | inr he =>
      rw [he]
      have hi := txComment_comments s id body reactions h
      have hl : tblLookup (applyTx s (txComment id body reactions)).comments id = some body := by
        rw [hi]; exact tblLookup_append_fresh s.comments id body h
      refine ⟨fun _ => hl, ?_, ?_⟩
      · intro _; rw [hi]; exact tblExists_append_self s.comments id body
      · intro rr hrr; exact Or.inr hl
  · intro s id body h s2 hs2
    rw [crashStates_single] at hs2
    simp only [List.mem_cons, List.mem_singleton, List.not_mem_nil, or_false] at hs2
    cases hs2 with
    | inl he =>
      rw [he]
      refine ⟨?_, ?_⟩
      · intro ht; rw [h] at ht; cases ht
      · intro hne; exact absurd (tblExists_lookup_none s.labels id h) hne
    | inr he =>
      rw [he]
      have hi := txLabel_labels s id body h
      refine ⟨?_, ?_⟩
      · intro _; rw [hi]; exact tblLookup_append_fresh s.labels id body h
      · intro _; rw [hi]; exact tblExists_append_self s.labels id body
  · intro s url body h s2 hs2
    rw [crashStates_single] at hs2
    simp only [List.mem_cons, List.mem_singleton, List.not_mem_nil, or_false] at hs2
    cases hs2 with
    | inl he =>
      rw [he]
      refine ⟨?_, ?_⟩
      · intro ht; rw [h] at ht; cases ht
      · intro hne; exact absurd (tblExists_lookup_none s.files url h) hne
    | inr he =>
      rw [he]
      have hi := txFile_files s url body h
      refine ⟨?_, ?_⟩
      · intro _; rw [hi]; exact tblLookup_append_fresh s.files url body h
      · intro _; rw [hi]; exact tblExists_append_self s.files url body

/-- Witness for C1: committing issue 1 with body [7, 7] and one reaction
into the empty store, the two crash-visible states behave as claimed; at
the committed state the presence-check sees the complete body. -/
theorem record_commit_atomic_witness :
    tblLookup (applyTx emptyStore (txIssue 1 [7, 7] [(5, [9])])).issues 1 = some [7, 7] :=
  (record_commit_atomic.1 emptyStore 1 [7, 7] [(5, [9])] (by decide)
      (applyTx emptyStore (txIssue 1 [7, 7] [(5, [9])])) (by decide)).1 (by decide)

theorem blobWriteLast_exists {κ : Type} [DecidableEq κ]
    (k : κ) (b : Blob) (t : List (κ × Blob)) (j : κ) :
    tblExists (blobWriteLast k b t) j = tblExists t j := by
  induction t with
  | nil => rfl
  | cons row rest ih =>
    rw [blobWriteLast]
    by_cases hany : (rest.any fun x => decide (x.1 = k)) = true
    · rw [if_pos hany]
      unfold tblExists at ih ⊢
      simp only [List.any_cons, ih]
    · rw [if_neg hany]
      by_cases hk : row.1 = k
      · rw [if_pos hk]
        unfold tblExists
        simp only [List.any_cons]
        rw [← hk]
      · rw [if_neg hk]

theorem tblExists_append_right {κ : Type} [DecidableEq κ]
    (t : List (κ × Blob)) (row : κ × Blob) (j : κ) (h : tblExists t j = true) :
    tblExists (t ++ [row]) j = true := by
  unfold tblExists at h ⊢
  rw [List.any_append, h]
  rfl

theorem applyOp_issues_exists (s : Store) (op : Op) (id : Int)
    (h : tblExists s.issues id = true) :
    tblExists (applyOp s op).issues id = true := by
  cases op with
  | insRec c i b =>
    cases c with
    | issues => exact tblExists_append_right s.issues (i, b) id h
    | comments => exact h
    | labels => exact h
  | writeRec c i b =>
    cases c with
    | issues =>
      show tblExists (blobWriteLast i b s.issues) id = true
      rw [blobWriteLast_exists]
      exact h
    | comments => exact h
    | labels => exact h
  | insIssueReaction a p b => exact h
  | insCommentReaction a p b => exact h
  | insFile u b => exact h
  | writeFile u b => exact h

theorem applyOp_comments_exists (s : Store) (op : Op) (id : Int)
    (h : tblExists s.comments id = true) :
    tblExists (applyOp s op).comments id = true := by
  cases op with
  | insRec c i b =>
    cases c with
    | issues => exact h
    | comments => exact tblExists_append_right s.comments (i, b) id h
    | labels => exact h
  | writeRec c i b =>
    cases c with
    | issues => exact h
    | comments =>
      show tblExists (blobWriteLast i b s.comments) id = true
      rw [blobWriteLast_exists]
      exact h
    | labels => exact h
  | insIssueReaction a p b => exact h
  | insCommentReaction a p b => exact h
  | insFile u b => exact h
  | writeFile u b => exact h

theorem applyOp_labels_exists (s : Store) (op : Op) (id : Int)
    (h : tblExists s.labels id = true) :
    tblExists (applyOp s op).labels id = true := by
  cases op with
  | insRec c i b =>
    cases c with
    | issues => exact h
    | comments => exact h
    | labels => exact tblExists_append_right s.labels (i, b) id h
  | writeRec c i b =>
    cases c with
    | issues => exact h
    | comments => exact h
    | labels =>
      show tblExists (blobWriteLast i b s.labels) id = true
      rw [blobWriteLast_exists]
      exact h
  | insIssueReaction a p b => exact h
  | insCommentReaction a p b => exact h
  | insFile u b => exact h
  | writeFile u b => exact h

theorem applyOp_files_exists (s : Store) (op : Op) (u : String)
    (h : tblExists s.files u = true) :
    tblExists (applyOp s op).files u = true := by
  cases op with
  | insRec c i b => cases c <;> exact h
  | writeRec c i b => cases c <;> exact h
  | insIssueReaction a p b => exact h
  | insCommentReaction a p b => exact h
  | insFile v b => exact tblExists_append_right s.files (v, b) u h
  | writeFile v b =>
    show tblExists (blobWriteLast v b s.files) u = true
    rw [blobWriteLast_exists]
    exact h

theorem applyTx_issues_exists (ops : List Op) :
    ∀ (s : Store) (id : Int), tblExists s.issues id = true →
      tblExists (applyTx s ops).issues id = true := by
  induction ops with
  | nil => intro s id h; exact h
  | cons op rest ih =>
    intro s id h
    exact ih (applyOp s op) id (applyOp_issues_exists s op id h)

theorem applyTx_comments_exists (ops : List Op) :
    ∀ (s : Store) (id : Int), tblExists s.comments id = true →
      tblExists (applyTx s ops).comments id = true := by
  induction ops with
  | nil => intro s id h; exact h
  | cons op rest ih =>
    intro s id h
    exact ih (applyOp s op) id (applyOp_comments_exists s op id h)

theorem applyTx_labels_exists (ops : List Op) :
    ∀ (s : Store) (id : Int), tblExists s.labels id = true →
      tblExists (applyTx s ops).labels id = true := by
  induction ops with
  | nil => intro s id h; exact h
  | cons op rest ih =>
    intro s id h
    exact ih (applyOp s op) id (applyOp_labels_exists s op id h)

theorem applyTx_files_exists (ops : List Op) :
    ∀ (s : Store) (u : String), tblExists s.files u = true →
      tblExists (applyTx s ops).files u = true := by
  induction ops with
  | nil => intro s u h; exact h
  | cons op rest ih =>
    intro s u h
    exact ih (applyOp s op) u (applyOp_files_exists s op u h)

/-! ### Collection synchronizer (the three record loops of backup.py backup)

A listed source record carries the bytes its record URL serves and, for
issues and comments, the reactions its reactions endpoint returns (only
consulted when nonempty, but an empty list makes that the same
transaction).  Each loop walks the listing, skips a record whose id the
presence-check already sees, and otherwise fetches the body and commits
the record's transaction.  The returned list logs the ids whose record
URL was fetched, in order. -/

structure IssueSrc where
  id : Int
  body : Blob
  reactions : List (Int × Blob)
deriving DecidableEq

structure Source where
  issues : List IssueSrc
  comments : List IssueSrc
  labels : List (Int × Blob)
deriving DecidableEq

def syncIssues : List IssueSrc → Store → Store × List Int
  | [], s => (s, [])
  | x :: xs, s =>
    if tblExists s.issues x.id then syncIssues xs s
    else
      let p := syncIssues xs (applyTx s (txIssue x.id x.body x.reactions))
      (p.1, x.id :: p.2)

def syncComments : List IssueSrc → Store → Store × List Int
  | [], s => (s, [])
  | x :: xs, s =>
    if tblExists s.comments x.id then syncComments xs s
    else
      let p := syncComments xs (applyTx s (txComment x.id x.body x.reactions))
      (p.1, x.id :: p.2)

def syncLabels : List (Int × Blob) → Store → Store × List Int
  | [], s => (s, [])
  | x :: xs, s =>
    if tblExists s.labels x.1 then syncLabels xs s
    else
      let p := syncLabels xs (applyTx s (txLabel x.1 x.2))
      (p.1, x.1 :: p.2)

theorem syncIssues_exists_mono (src : List IssueSrc) :
    ∀ (s : Store) (id : Int), tblExists s.issues id = true →
      tblExists (syncIssues src s).1.issues id = true := by
  induction src with
  | nil => intro s id h; exact h
  | cons x xs ih =>
    intro s id h
    unfold syncIssues
    by_cases hx : tblExists s.issues x.id = true
    · rw [if_pos hx]; exact ih s id h
    · rw [if_neg hx]
      exact ih _ id (applyTx_issues_exists _ s id h)

theorem syncIssues_not_fetched (src : List IssueSrc) :
    ∀ (s : Store) (id : Int), tblExists s.issues id = true →
      id ∉ (syncIssues src s).2 := by
  induction src with
  | nil => intro s id _ hc; cases hc
  | cons x xs ih =>
    intro s id h
    unfold syncIssues
    by_cases hx : tblExists s.issues x.id = true
    · rw [if_pos hx]; exact ih s id h
    · rw [if_neg hx]
      intro hc
      simp only [List.mem_cons] at hc
      cases hc with
      | inl he => rw [he] at h; rw [h] at hx; exact hx rfl
      | inr hm =>
        exact ih _ id (applyTx_issues_exists _ s id h) hm

theorem syncIssues_all_exist (src : List IssueSrc) :
    ∀ (s : Store), ∀ x ∈ src, tblExists (syncIssues src s).1.issues x.id = true := by
  induction src with
  | nil => intro s x hx; cases hx
  | cons y ys ih =>
    intro s x hx
    unfold syncIssues
    simp only [List.mem_cons] at hx
    by_cases hy : tblExists s.issues y.id = true
    · rw [if_pos hy]
      cases hx with
      | inl he => rw [he]; exact syncIssues_exists_mono ys s y.id hy
      | inr hm => exact ih s x hm
    · rw [if_neg hy]
      cases hx with
      | inl he =>
        rw [he]
        apply syncIssues_exists_mono
        have hb : tblExists s.issues y.id = false := by
          cases hcc : tblExists s.issues y.id with
          | false => rfl
          | true => exact absurd hcc hy
        rw [txIssue_issues s y.id y.body y.reactions hb]
        exact tblExists_append_self s.issues y.id y.body
      | inr hm => exact ih _ x hm

theorem syncIssues_noop (src : List IssueSrc) :
    ∀ (s : Store), (∀ x ∈ src, tblExists s.issues x.id = true) →
      syncIssues src s = (s, []) := by
  induction src with
  | nil => intro s _; rfl
  | cons x xs ih =>
    intro s h
    unfold syncIssues
    rw [if_pos (h x (List.mem_cons_self x xs))]
    exact ih s (fun y hy => h y (List.mem_cons_of_mem x hy))

theorem syncComments_exists_mono (src : List IssueSrc) :
    ∀ (s : Store) (id : Int), tblExists s.comments id = true →
      tblExists (syncComments src s).1.comments id = true := by
  induction src with
  | nil => intro s id h; exact h
  | cons x xs ih =>
    intro s id h
    unfold syncComments
    by_cases hx : tblExists s.comments x.id = true
    · rw [if_pos hx]; exact ih s id h
    · rw [if_neg hx]
      exact ih _ id (applyTx_comments_exists _ s id h)

theorem syncComments_not_fetched (src : List IssueSrc) :
    ∀ (s : Store) (id : Int), tblExists s.comments id = true →
      id ∉ (syncComments src s).2 := by
  induction src with
  | nil => intro s id _ hc; cases hc
  | cons x xs ih =>
    intro s id h
    unfold syncComments
    by_cases hx : tblExists s.comments x.id = true
    · rw [if_pos hx]; exact ih s id h
    · rw [if_neg hx]
      intro hc
      simp only [List.mem_cons] at hc
      cases hc with
      | inl he => rw [he] at h; rw [h] at hx; exact hx rfl
      | inr hm =>
        exact ih _ id (applyTx_comments_exists _ s id h) hm

theorem syncComments_all_exist (src : List IssueSrc) :
    ∀ (s : Store), ∀ x ∈ src, tblExists (syncComments src s).1.comments x.id = true := by
  induction src with
  | nil => intro s x hx; cases hx
  | cons y ys ih =>
    intro s x hx
    unfold syncComments
    simp only [List.mem_cons] at hx
    by_cases hy : tblExists s.comments y.id = true
    · rw [if_pos hy]
      cases hx with
      | inl he => rw [he]; exact syncComments_exists_mono ys s y.id hy
      | inr hm => exact ih s x hm
    · rw [if_neg hy]
      cases hx with
      | inl he =>
        rw [he]
        apply syncComments_exists_mono
        have hb : tblExists s.comments y.id = false := by
          cases hcc : tblExists s.comments y.id with
          | false => rfl
          | true => exact absurd hcc hy
        rw [txComment_comments s y.id y.body y.reactions hb]
        exact tblExists_append_self s.comments y.id y.body
      | inr hm => exact ih _ x hm

theorem syncComments_noop (src : List IssueSrc) :
    ∀ (s : Store), (∀ x ∈ src, tblExists s.comments x.id = true) →
      syncComments src s = (s, []) := by
  induction src with
  | nil => intro s _; rfl
  | cons x xs ih =>
    intro s h
    unfold syncComments
    rw [if_pos (h x (List.mem_cons_self x xs))]
    exact ih s (fun y hy => h y (List.mem_cons_of_mem x hy))

theorem syncLabels_exists_mono (src : List (Int × Blob)) :
    ∀ (s : Store) (id : Int), tblExists s.labels id = true →
      tblExists (syncLabels src s).1.labels id = true := by
  induction src with
  | nil => intro s id h; exact h
  | cons x xs ih =>
    intro s id h
    unfold syncLabels
    by_cases hx : tblExists s.labels x.1 = true
    · rw [if_pos hx]; exact ih s id h
    · rw [if_neg hx]
      exact ih _ id (applyTx_labels_exists _ s id h)

theorem syncLabels_not_fetched (src : List (Int × Blob)) :
    ∀ (s : Store) (id : Int), tblExists s.labels id = true →
      id ∉ (syncLabels src s).2 := by
  induction src with
  | nil => intro s id _ hc; cases hc
  | cons x xs ih =>
    intro s id h
    unfold syncLabels
    by_cases hx : tblExists s.labels x.1 = true
    · rw [if_pos hx]; exact ih s id h
    · rw [if_neg hx]
      intro hc
      simp only [List.mem_cons] at hc
      cases hc with
      | inl he => rw [he] at h; rw [h] at hx; exact hx rfl
      | inr hm =>
        exact ih _ id (applyTx_labels_exists _ s id h) hm

theorem syncLabels_all_exist (src : List (Int × Blob)) :
    ∀ (s : Store), ∀ x ∈ src, tblExists (syncLabels src s).1.labels x.1 = true := by
  induction src with
  | nil => intro s x hx; cases hx
  | cons y ys ih =>
    intro s x hx
    unfold syncLabels
    simp only [List.mem_cons] at hx
    by_cases hy : tblExists s.labels y.1 = true
    · rw [if_pos hy]
      cases hx with
      | inl he => rw [he]; exact syncLabels_exists_mono ys s y.1 hy
      | inr hm => exact ih s x hm
    · rw [if_neg hy]
      cases hx with
      | inl he =>
        rw [he]
        apply syncLabels_exists_mono
        have hb : tblExists s.labels y.1 = false := by
          cases hcc : tblExists s.labels y.1 with
          | false => rfl
          | true => exact absurd hcc hy
        rw [txLabel_labels s y.1 y.2 hb]
        exact tblExists_append_self s.labels y.1 y.2
      | inr hm => exact ih _ x hm

theorem syncLabels_noop (src : List (Int × Blob)) :
    ∀ (s : Store), (∀ x ∈ src, tblExists s.labels x.1 = true) →
      syncLabels src s = (s, []) := by
  induction src with
  | nil => intro s _; rfl
  | cons x xs ih =>
    intro s h
    unfold syncLabels
    rw [if_pos (h x (List.mem_cons_self x xs))]
    exact ih s (fun y hy => h y (List.mem_cons_of_mem x hy))

/-! Frame facts: each commit transaction touches only its own tables. -/

theorem txIssue_comments_frame (s : Store) (i : Int) (b : Blob) (rs : List (Int × Blob)) :
    (applyTx s (txIssue i b rs)).comments = s.comments := by
  apply applyTx_comments_frame
  intro op hop
  unfold txIssue at hop
  simp only [List.mem_cons, List.mem_map] at hop
  rcases hop with rfl | rfl | ⟨rb, _, rfl⟩ <;> rfl

theorem txIssue_labels_frame (s : Store) (i : Int) (b : Blob) (rs : List (Int × Blob)) :
    (applyTx s (txIssue i b rs)).labels = s.labels := by
  apply applyTx_labels_frame
  intro op hop
  unfold txIssue at hop
  simp only [List.mem_cons, List.mem_map] at hop
  rcases hop with rfl | rfl | ⟨rb, _, rfl⟩ <;> rfl

theorem txIssue_files_frame (s : Store) (i : Int) (b : Blob) (rs : List (Int × Blob)) :
    (applyTx s (txIssue i b rs)).files = s.files := by
  apply applyTx_files_frame
  intro op hop
  unfold txIssue at hop
  simp only [List.mem_cons, List.mem_map] at hop
  rcases hop with rfl | rfl | ⟨rb, _, rfl⟩ <;> rfl

theorem txComment_issues_frame (s : Store) (i : Int) (b : Blob) (rs : List (Int × Blob)) :
    (applyTx s (txComment i b rs)).issues = s.issues := by
  apply applyTx_issues_frame
  intro op hop
  unfold txComment at hop
  simp only [List.mem_cons, List.mem_map] at hop
  rcases hop with rfl | rfl | ⟨rb, _, rfl⟩ <;> rfl

theorem txComment_labels_frame (s : Store) (i : Int) (b : Blob) (rs : List (Int × Blob)) :
    (applyTx s (txComment i b rs)).labels = s.labels := by
  apply applyTx_labels_frame
  intro op hop
  unfold txComment at hop
  simp only [List.mem_cons, List.mem_map] at hop
  rcases hop with rfl | rfl | ⟨rb, _, rfl⟩ <;> rfl

theorem txComment_files_frame (s : Store) (i : Int) (b : Blob) (rs : List (Int × Blob)) :
    (applyTx s (txComment i b rs)).files = s.files := by
  apply applyTx_files_frame
  intro op hop
  unfold txComment at hop
  simp only [List.mem_cons, List.mem_map] at hop
  rcases hop with rfl | rfl | ⟨rb, _, rfl⟩ <;> rfl

theorem txLabel_issues_frame (s : Store) (i : Int) (b : Blob) :
    (applyTx s (txLabel i b)).issues = s.issues := by
  apply applyTx_issues_frame
  intro op hop
  unfold txLabel at hop
  simp only [List.mem_cons, List.mem_singleton, List.not_mem_nil, or_false] at hop
  rcases hop with rfl | rfl <;> rfl

theorem txLabel_comments_frame (s : Store) (i : Int) (b : Blob) :
    (applyTx s (txLabel i b)).comments = s.comments := by
  apply applyTx_comments_frame
  intro op hop
  unfold txLabel at hop
  simp only [List.mem_cons, List.mem_singleton, List.not_mem_nil, or_false] at hop
  rcases hop with rfl | rfl <;> rfl

theorem txLabel_files_frame (s : Store) (i : Int) (b : Blob) :
    (applyTx s (txLabel i b)).files = s.files := by
  apply applyTx_files_frame
  intro op hop
  unfold txLabel at hop
  simp only [List.mem_cons, List.mem_singleton, List.not_mem_nil, or_false] at hop
  rcases hop with rfl | rfl <;> rfl

theorem txFile_issues_frame (s : Store) (u : String) (b : Blob) :
    (applyTx s (txFile u b)).issues = s.issues := by
  apply applyTx_issues_frame
  intro op hop
  unfold txFile at hop
  simp only [List.mem_cons, List.mem_singleton, List.not_mem_nil, or_false] at hop
  rcases hop with rfl | rfl <;> rfl

theorem txFile_comments_frame (s : Store) (u : String) (b : Blob) :
    (applyTx s (txFile u b)).comments = s.comments := by
  apply applyTx_comments_frame
  intro op hop
  unfold txFile at hop
  simp only [List.mem_cons, List.mem_singleton, List.not_mem_nil, or_false] at hop
  rcases hop with rfl | rfl <;> rfl

theorem txFile_labels_frame (s : Store) (u : String) (b : Blob) :
    (applyTx s (txFile u b)).labels = s.labels := by
  apply applyTx_labels_frame
  intro op hop
  unfold txFile at hop
  simp only [List.mem_cons, List.mem_singleton, List.not_mem_nil, or_false] at hop
  rcases hop with rfl | rfl <;> rfl

theorem syncIssues_comments_frame (src : List IssueSrc) :
    ∀ s : Store, (syncIssues src s).1.comments = s.comments := by
  induction src with
  | nil => intro s; rfl
  | cons x xs ih =>
    intro s
    unfold syncIssues
    by_cases hx : tblExists s.issues x.id = true
    · rw [if_pos hx]; exact ih s
    · rw [if_neg hx]
      show (syncIssues xs (applyTx s (txIssue x.id x.body x.reactions))).1.comments = s.comments
      rw [ih, txIssue_comments_frame]

theorem syncIssues_labels_frame (src : List IssueSrc) :
    ∀ s : Store, (syncIssues src s).1.labels = s.labels := by
  induction src with
  | nil => intro s; rfl
  | cons x xs ih =>
    intro s
    unfold syncIssues
    by_cases hx : tblExists s.issues x.id = true
    · rw [if_pos hx]; exact ih s
    · rw [if_neg hx]
      show (syncIssues xs (applyTx s (txIssue x.id x.body x.reactions))).1.labels = s.labels
      rw [ih, txIssue_labels_frame]

theorem syncIssues_files_frame (src : List IssueSrc) :
    ∀ s : Store, (syncIssues src s).1.files = s.files := by
  induction src with
  | nil => intro s; rfl
  | cons x xs ih =>
    intro s
    unfold syncIssues
    by_cases hx : tblExists s.issues x.id = true
    · rw [if_pos hx]; exact ih s
    · rw [if_neg hx]
      show (syncIssues xs (applyTx s (txIssue x.id x.body x.reactions))).1.files = s.files
      rw [ih, txIssue_files_frame]

theorem syncComments_issues_frame (src : List IssueSrc) :
    ∀ s : Store, (syncComments src s).1.issues = s.issues := by
  induction src with
  | nil => intro s; rfl
  | cons x xs ih =>
    intro s
    unfold syncComments
    by_cases hx : tblExists s.comments x.id = true
    · rw [if_pos hx]; exact ih s
    · rw [if_neg hx]
      show (syncComments xs (applyTx s (txComment x.id x.body x.reactions))).1.issues = s.issues
      rw [ih, txComment_issues_frame]

theorem syncComments_labels_frame (src : List IssueSrc) :
    ∀ s : Store, (syncComments src s).1.labels = s.labels := by
  induction src with
  | nil => intro s; rfl
  | cons x xs ih =>
    intro s
    unfold syncComments
    by_cases hx : tblExists s.comments x.id = true
    · rw [if_pos hx]; exact ih s
    · rw [if_neg hx]
      show (syncComments xs (applyTx s (txComment x.id x.body x.reactions))).1.labels = s.labels
      rw [ih, txComment_labels_frame]

theorem syncComments_files_frame (src : List IssueSrc) :
    ∀ s : Store, (syncComments src s).1.files = s.files := by
  induction src with
  | nil => intro s; rfl
  | cons x xs ih =>
    intro s
    unfold syncComments
    by_cases hx : tblExists s.comments x.id = true
    · rw [if_pos hx]; exact ih s
    · rw [if_neg hx]
      show (syncComments xs (applyTx s (txComment x.id x.body x.reactions))).1.files = s.files
      rw [ih, txComment_files_frame]

theorem syncLabels_issues_frame (src : List (Int × Blob)) :
    ∀ s : Store, (syncLabels src s).1.issues = s.issues := by
  induction src with
  | nil => intro s; rfl
  | cons x xs ih =>
    intro s
    unfold syncLabels
    by_cases hx : tblExists s.labels x.1 = true
    · rw [if_pos hx]; exact ih s
    · rw [if_neg hx]
      show (syncLabels xs (applyTx s (txLabel x.1 x.2))).1.issues = s.issues
      rw [ih, txLabel_issues_frame]

theorem syncLabels_comments_frame (src : List (Int × Blob)) :
    ∀ s : Store, (syncLabels src s).1.comments = s.comments := by
  induction src with
  | nil => intro s; rfl
  | cons x xs ih =>
    intro s
    unfold syncLabels
    by_cases hx : tblExists s.labels x.1 = true
    · rw [if_pos hx]; exact ih s
    · rw [if_neg hx]
      show (syncLabels xs (applyTx s (txLabel x.1 x.2))).1.comments = s.comments
      rw [ih, txLabel_comments_frame]

theorem syncLabels_files_frame (src : List (Int × Blob)) :
    ∀ s : Store, (syncLabels src s).1.files = s.files := by
  induction src with
  | nil => intro s; rfl
  | cons x xs ih =>
    intro s
    unfold syncLabels
    by_cases hx : tblExists s.labels x.1 = true
    · rw [if_pos hx]; exact ih s
    · rw [if_neg hx]
      show (syncLabels xs (applyTx s (txLabel x.1 x.2))).1.files = s.files
      rw [ih, txLabel_files_frame]

/-! ### Asset fetch pass (backup.py backup, lines 329-359)

scrape_links yields, for each stored issue body then each stored comment
body, the author's avatar URL followed by each markdown link with its
fragment discarded.  Link extraction itself (json plus mistune) is an
external collaborator, modelled by the extract parameter.  The pass seeds
its seen set from the urls already in the files table, then walks the
scraped links in order, skipping unwanted links and links already seen,
and fetching and committing the rest, adding each to the seen set. -/

structure BodyLinks where
  avatar : String
  links : List String
deriving DecidableEq

/-- Python set membership for the seen set, modelled on a list. -/
def memb (u : String) (l : List String) : Bool :=
  l.any (fun x => decide (x = u))

theorem memb_iff_mem (u : String) (l : List String) : memb u l = true ↔ u ∈ l := by
  simp [memb]

/-- scrape_links: all stored issue bodies then all stored comment bodies,
per body the avatar URL then the fragment-stripped markdown links. -/
def scrapeStore (extract : Blob → BodyLinks) (s : Store) : List String :=
  ((s.issues.map Prod.snd) ++ (s.comments.map Prod.snd)).flatMap
    (fun b => (extract b).avatar :: (extract b).links.map stripFragment)

/-- The loop over scraped links: seen set, store, and fetch log. -/
def filesGo (fetchF : String → Blob) (owner repo : String) :
    List String → List String → Store → List String → Store × List String
  | [], _, s, order => (s, order)
  | l :: ls, seen, s, order =>
    if link_is_wanted owner repo l = false then filesGo fetchF owner repo ls seen s order
    else if memb l seen then filesGo fetchF owner repo ls seen s order
    else filesGo fetchF owner repo ls (l :: seen)
      (applyTx s (txFile l (fetchF l))) (order ++ [l])

/-- The asset fetch pass: seen seeded from the files table. -/
def filesPass (extract : Blob → BodyLinks) (fetchF : String → Blob)
    (owner repo : String) (s : Store) : Store × List String :=
  filesGo fetchF owner repo (scrapeStore extract s) (s.files.map Prod.fst) s []

/-- Order-preserving first-occurrence deduplication against a seen set;
the specification-side description of which links the pass fetches. -/
def dedupKeep : List String → List String → List String
  | _, [] => []
  | seen, l :: ls =>
    if memb l seen then dedupKeep seen ls else l :: dedupKeep (l :: seen) ls

theorem dedupKeep_cons (seen : List String) (l : String) (ls : List String) :
    dedupKeep seen (l :: ls)
      = if memb l seen then dedupKeep seen ls else l :: dedupKeep (l :: seen) ls := rfl

theorem dedupKeep_mem (u : String) :
    ∀ (ls seen : List String),
      u ∈ dedupKeep seen ls ↔ (u ∈ ls ∧ memb u seen = false) := by
  intro ls
  induction ls with
  | nil => intro seen; simp [dedupKeep]
  | cons l ls ih =>
    intro seen
    unfold dedupKeep
    by_cases hl : memb l seen = true
    · rw [if_pos hl]
      rw [ih seen]
      by_cases hu : u = l
      · subst hu
        simp [hl]
      · simp [List.mem_cons, hu]
    · rw [if_neg hl]
      simp only [List.mem_cons]
      by_cases hu : u = l
      · subst hu
        constructor
        · intro _
          refine ⟨Or.inl rfl, ?_⟩
          cases hm : memb u seen with
          | false => rfl
          | true => exact absurd hm hl
        · intro _
          exact Or.inl rfl
      · constructor
        · intro hmem
          cases hmem with
          | inl he => exact absurd he hu
          | inr hm =>
            rw [ih (l :: seen)] at hm
            refine ⟨Or.inr hm.1, ?_⟩
            have := hm.2
            unfold memb at this
            simp only [List.any_cons, Bool.or_eq_false_iff] at this
            exact this.2
        · rintro ⟨hmem, hns⟩
          cases hmem with
          | inl he => exact absurd he hu
          | inr hm =>
            refine Or.inr ?_
            rw [ih (l :: seen)]
            refine ⟨hm, ?_⟩
            unfold memb
            simp only [List.any_cons, Bool.or_eq_false_iff]
            constructor
            · simp only [decide_eq_false_iff_not]
              intro hc
              exact hu hc.symm
            · exact hns

theorem dedupKeep_nodup : ∀ (ls seen : List String), (dedupKeep seen ls).Nodup := by
  intro ls
  induction ls with
  | nil => intro seen; simp [dedupKeep]
  | cons l ls ih =>
    intro seen
    unfold dedupKeep
    by_cases hl : memb l seen = true
    · rw [if_pos hl]; exact ih seen
    · rw [if_neg hl]
      refine List.Nodup.cons ?_ (ih (l :: seen))
      intro hc
      rw [dedupKeep_mem] at hc
      have := hc.2
      unfold memb at this
      simp at this

theorem blobWriteLast_append_last {κ : Type} [DecidableEq κ]
    (t : List (κ × Blob)) (k : κ) (b z : Blob) :
    blobWriteLast k b (t ++ [(k, z)]) = t ++ [(k, b)] := by
  induction t with
  | nil => simp [blobWriteLast]
  | cons row rest ih =>
    rw [List.cons_append, blobWriteLast]
    have hany : ((rest ++ [(k, z)]).any fun x => decide (x.1 = k)) = true := by
      simp
    simp [hany, ih]

theorem txFile_files_keys (s : Store) (u : String) (b : Blob) :
    (applyTx s (txFile u b)).files.map Prod.fst = s.files.map Prod.fst ++ [u] := by
  unfold txFile applyTx
  simp only [List.foldl_cons, List.foldl_nil]
  simp only [applyOp]
  rw [blobWriteLast_append_last]
  simp

theorem filesGo_order (fetchF : String → Blob) (owner repo : String) :
    ∀ (links seen : List String) (s : Store) (order : List String),
      (filesGo fetchF owner repo links seen s order).2
        = order ++ dedupKeep seen (links.filter (fun l => link_is_wanted owner repo l)) := by
  intro links
  induction links with
  | nil => intro seen s order; simp [filesGo, dedupKeep]
  | cons l ls ih =>
    intro seen s order
    unfold filesGo
    by_cases hw : link_is_wanted owner repo l = false
    · rw [if_pos hw]
      rw [ih seen s order]
      have : (l :: ls).filter (fun x => link_is_wanted owner repo x)
          = ls.filter (fun x => link_is_wanted owner repo x) := by
        rw [List.filter_cons_of_neg]
        simp [hw]
      rw [this]
    · rw [if_neg hw]
      have hw2 : link_is_wanted owner repo l = true := by
        cases hc : link_is_wanted owner repo l with
        | false => exact absurd hc hw
        | true => rfl
      have hfil : (l :: ls).filter (fun x => link_is_wanted owner repo x)
          = l :: ls.filter (fun x => link_is_wanted owner repo x) := by
        rw [List.filter_cons_of_pos]
        simp [hw2]
      by_cases hs : memb l seen = true
      · rw [if_pos hs]
        rw [ih seen s order, hfil, dedupKeep_cons, if_pos hs]
      · rw [if_neg hs]
        rw [ih (l :: seen) _ (order ++ [l]), hfil, dedupKeep_cons, if_neg hs]
        rw [List.append_assoc]
        rfl

theorem filesGo_files_keys (fetchF : String → Blob) (owner repo : String) :
    ∀ (links seen : List String) (s : Store) (order : List String),
      (filesGo fetchF owner repo links seen s order).1.files.map Prod.fst
        = s.files.map Prod.fst
          ++ dedupKeep seen (links.filter (fun l => link_is_wanted owner repo l)) := by
  intro links
  induction links with
  | nil => intro seen s order; simp [filesGo, dedupKeep]
  | cons l ls ih =>
    intro seen s order
    unfold filesGo
    by_cases hw : link_is_wanted owner repo l = false
    · rw [if_pos hw]
      rw [ih seen s order]
      have : (l :: ls).filter (fun x => link_is_wanted owner repo x)
          = ls.filter (fun x => link_is_wanted owner repo x) := by
        rw [List.filter_cons_of_neg]
        simp [hw]
      rw [this]
    · rw [if_neg hw]
      have hw2 : link_is_wanted owner repo l = true := by
        cases hc : link_is_wanted owner repo l with
        | false => exact absurd hc hw
        | true => rfl
      have hfil : (l :: ls).filter (fun x => link_is_wanted owner repo x)
          = l :: ls.filter (fun x => link_is_wanted owner repo x) := by
        rw [List.filter_cons_of_pos]
        simp [hw2]
      by_cases hs : memb l seen = true
      · rw [if_pos hs]
        rw [ih seen s order, hfil, dedupKeep_cons, if_pos hs]
      · rw [if_neg hs]
        rw [ih (l :: seen) _ (order ++ [l]), hfil, dedupKeep_cons, if_neg hs]
        rw [txFile_files_keys]
        rw [List.append_assoc]
        rfl

theorem filesGo_issues_frame (fetchF : String → Blob) (owner repo : String) :
    ∀ (links seen : List String) (s : Store) (order : List String),
      (filesGo fetchF owner repo links seen s order).1.issues = s.issues := by
  intro links
  induction links with
  | nil => intro seen s order; rfl
  | cons l ls ih =>
    intro seen s order
    unfold filesGo
    by_cases hw : link_is_wanted owner repo l = false
    · rw [if_pos hw]; exact ih seen s order
    · rw [if_neg hw]
      by_cases hs : memb l seen = true
      · rw [if_pos hs]; exact ih seen s order
      · rw [if_neg hs]
        rw [ih (l :: seen) _ (order ++ [l])]
        exact txFile_issues_frame s l (fetchF l)

theorem filesGo_comments_frame (fetchF : String → Blob) (owner repo : String) :
    ∀ (links seen : List String) (s : Store) (order : List String),
      (filesGo fetchF owner repo links seen s order).1.comments = s.comments := by
  intro links
  induction links with
  | nil => intro seen s order; rfl
  | cons l ls ih =>
    intro seen s order
    unfold filesGo
    by_cases hw : link_is_wanted owner repo l = false
    · rw [if_pos hw]; exact ih seen s order
    · rw [if_neg hw]
      by_cases hs : memb l seen = true
      · rw [if_pos hs]; exact ih seen s order
      · rw [if_neg hs]
        rw [ih (l :: seen) _ (order ++ [l])]
        exact txFile_comments_frame s l (fetchF l)

theorem filesGo_labels_frame (fetchF : String → Blob) (owner repo : String) :
    ∀ (links seen : List String) (s : Store) (order : List String),
      (filesGo fetchF owner repo links seen s order).1.labels = s.labels := by
  intro links
  induction links with
  | nil => intro seen s order; rfl
  | cons l ls ih =>
    intro seen s order
    unfold filesGo
    by_cases hw : link_is_wanted owner repo l = false
    · rw [if_pos hw]; exact ih seen s order
    · rw [if_neg hw]
      by_cases hs : memb l seen = true
      · rw [if_pos hs]; exact ih seen s order
      · rw [if_neg hs]
        rw [ih (l :: seen) _ (order ++ [l])]
        exact txFile_labels_frame s l (fetchF l)

theorem filesGo_noop (fetchF : String → Blob) (owner repo : String) :
    ∀ (links seen : List String) (s : Store) (order : List String),
      (∀ l ∈ links, link_is_wanted owner repo l = true → memb l seen = true) →
      filesGo fetchF owner repo links seen s order = (s, order) := by
  intro links
  induction links with
  | nil => intro seen s order _; rfl
  | cons l ls ih =>
    intro seen s order h
    unfold filesGo
    by_cases hw : link_is_wanted owner repo l = false
    · rw [if_pos hw]
      exact ih seen s order (fun x hx => h x (List.mem_cons_of_mem l hx))
    · rw [if_neg hw]
      have hw2 : link_is_wanted owner repo l = true := by
        cases hc : link_is_wanted owner repo l with
        | false => exact absurd hc hw
        | true => rfl
      rw [if_pos (h l (List.mem_cons_self l ls) hw2)]
      exact ih seen s order (fun x hx => h x (List.mem_cons_of_mem l hx))

structure RunLog where
  issueFetches : List Int
  commentFetches : List Int
  labelFetches : List Int
  fileFetches : List String
deriving DecidableEq

/-- backup.py backup: the three collection loops in their fixed order,
then the asset fetch pass, over an arbitrary starting store (the database
file a previous, possibly interrupted, run left behind).  The log records
which record bodies and file urls were actually fetched. -/
def runBackup (extract : Blob → BodyLinks) (fetchF : String → Blob)
    (owner repo : String) (src : Source) (s0 : Store) : Store × RunLog :=
  let r1 := syncIssues src.issues s0
  let r2 := syncComments src.comments r1.1
  let r3 := syncLabels src.labels r2.1
  let r4 := filesPass extract fetchF owner repo r3.1
  (r4.1, ⟨r1.2, r2.2, r3.2, r4.2⟩)

theorem tblExists_iff_mem_keys {κ : Type} [DecidableEq κ] (t : List (κ × Blob)) (k : κ) :
    tblExists t k = true ↔ k ∈ t.map Prod.fst := by
  simp [tblExists, List.any_eq_true]

theorem filesPass_issues_frame (extract : Blob → BodyLinks) (fetchF : String → Blob)
    (owner repo : String) (s : Store) :
    (filesPass extract fetchF owner repo s).1.issues = s.issues :=
  filesGo_issues_frame fetchF owner repo _ _ s []

theorem filesPass_comments_frame (extract : Blob → BodyLinks) (fetchF : String → Blob)
    (owner repo : String) (s : Store) :
    (filesPass extract fetchF owner repo s).1.comments = s.comments :=
  filesGo_comments_frame fetchF owner repo _ _ s []

theorem filesPass_labels_frame (extract : Blob → BodyLinks) (fetchF : String → Blob)
    (owner repo : String) (s : Store) :
    (filesPass extract fetchF owner repo s).1.labels = s.labels :=
  filesGo_labels_frame fetchF owner repo _ _ s []

theorem filesPass_order (extract : Blob → BodyLinks) (fetchF : String → Blob)
    (owner repo : String) (s : Store) :
    (filesPass extract fetchF owner repo s).2
      = dedupKeep (s.files.map Prod.fst)
          ((scrapeStore extract s).filter (fun l => link_is_wanted owner repo l)) := by
  unfold filesPass
  rw [filesGo_order]
  rfl

theorem filesPass_keys (extract : Blob → BodyLinks) (fetchF : String → Blob)
    (owner repo : String) (s : Store) :
    (filesPass extract fetchF owner repo s).1.files.map Prod.fst
      = s.files.map Prod.fst
        ++ dedupKeep (s.files.map Prod.fst)
            ((scrapeStore extract s).filter (fun l => link_is_wanted owner repo l)) := by
  unfold filesPass
  rw [filesGo_files_keys]

theorem scrapeStore_congr (extract : Blob → BodyLinks) (s t : Store)
    (h1 : s.issues = t.issues) (h2 : s.comments = t.comments) :
    scrapeStore extract s = scrapeStore extract t := by
  unfold scrapeStore
  rw [h1, h2]

theorem filesPass_wanted_in_keys (extract : Blob → BodyLinks) (fetchF : String → Blob)
    (owner repo : String) (s : Store) (l : String)
    (hl : l ∈ scrapeStore extract s) (hw : link_is_wanted owner repo l = true) :
    memb l ((filesPass extract fetchF owner repo s).1.files.map Prod.fst) = true := by
  rw [memb_iff_mem, filesPass_keys]
  by_cases hm : memb l (s.files.map Prod.fst) = true
  · exact List.mem_append_left _ ((memb_iff_mem l _).mp hm)
  · refine List.mem_append_right _ ?_
    rw [dedupKeep_mem]
    refine ⟨List.mem_filter.mpr ⟨hl, hw⟩, ?_⟩
    cases hc : memb l (s.files.map Prod.fst) with
    | false => rfl
    | true => exact absurd hc hm

theorem runBackup_noop (extract : Blob → BodyLinks) (fetchF : String → Blob)
    (owner repo : String) (src : Source) (s : Store)
    (hIss : ∀ x ∈ src.issues, tblExists s.issues x.id = true)
    (hCom : ∀ x ∈ src.comments, tblExists s.comments x.id = true)
    (hLab : ∀ x ∈ src.labels, tblExists s.labels x.1 = true)
    (hFil : ∀ l ∈ scrapeStore extract s, link_is_wanted owner repo l = true →
        memb l (s.files.map Prod.fst) = true) :
    runBackup extract fetchF owner repo src s = (s, ⟨[], [], [], []⟩) := by
  have h1 : syncIssues src.issues s = (s, []) := syncIssues_noop src.issues s hIss
  have h2 : syncComments src.comments s = (s, []) := syncComments_noop src.comments s hCom
  have h3 : syncLabels src.labels s = (s, []) := syncLabels_noop src.labels s hLab
  have h4 : filesGo fetchF owner repo (scrapeStore extract s) (s.files.map Prod.fst) s []
      = (s, []) := filesGo_noop fetchF owner repo _ _ s [] hFil
  simp only [runBackup, filesPass, h1, h2, h3, h4]

/-- C2: a record id (or file url) already present when a run starts is
never fetched by that run; and re-running over the store left by a
complete run is a no-op: zero fetches in every collection, and a store
equal to the first run's output. -/
theorem idempotent_resume :
    (∀ (extract : Blob → BodyLinks) (fetchF : String → Blob) (owner repo : String)
        (src : Source) (s0 : Store) (id : Int),
        tblExists s0.issues id = true →
        id ∉ (runBackup extract fetchF owner repo src s0).2.issueFetches)
    ∧ (∀ (extract : Blob → BodyLinks) (fetchF : String → Blob) (owner repo : String)
        (src : Source) (s0 : Store) (id : Int),
        tblExists s0.comments id = true →
        id ∉ (runBackup extract fetchF owner repo src s0).2.commentFetches)
    ∧ (∀ (extract : Blob → BodyLinks) (fetchF : String → Blob) (owner repo : String)
        (src : Source) (s0 : Store) (id : Int),
        tblExists s0.labels id = true →
        id ∉ (runBackup extract fetchF owner repo src s0).2.labelFetches)
    ∧ (∀ (extract : Blob → BodyLinks) (fetchF : String → Blob) (owner repo : String)
        (src : Source) (s0 : Store) (u : String),
        tblExists s0.files u = true →
        u ∉ (runBackup extract fetchF owner repo src s0).2.fileFetches)
    ∧ (∀ (extract : Blob → BodyLinks) (fetchF : String → Blob) (owner repo : String)
        (src : Source) (s0 : Store),
        runBackup extract fetchF owner repo src
            (runBackup extract fetchF owner repo src s0).1
          = ((runBackup extract fetchF owner repo src s0).1,
             RunLog.mk [] [] [] [])) := by
  refine ⟨?_, ?_, ?_, ?_, ?_⟩
  · intro extract fetchF owner repo src s0 id h
    exact syncIssues_not_fetched src.issues s0 id h
  · intro extract fetchF owner repo src s0 id h
    have hc : tblExists (syncIssues src.issues s0).1.comments id = true := by
      rw [syncIssues_comments_frame]
      exact h
    exact syncComments_not_fetched src.comments _ id hc
  · intro extract fetchF owner repo src s0 id h
    have hc : tblExists (syncComments src.comments (syncIssues src.issues s0).1).1.labels id
        = true := by
      rw [syncComments_labels_frame, syncIssues_labels_frame]
      exact h
    exact syncLabels_not_fetched src.labels _ id hc
  · intro extract fetchF owner repo src s0 u h
    show u ∉ (filesPass extract fetchF owner repo
      (syncLabels src.labels (syncComments src.comments (syncIssues src.issues s0).1).1).1).2
    rw [filesPass_order]
    intro hc
    rw [dedupKeep_mem] at hc
    have hkeys :
        (syncLabels src.labels (syncComments src.comments
            (syncIssues src.issues s0).1).1).1.files = s0.files := by
      rw [syncLabels_files_frame, syncComments_files_frame, syncIssues_files_frame]
    have hm : memb u ((syncLabels src.labels (syncComments src.comments
        (syncIssues src.issues s0).1).1).1.files.map Prod.fst) = true := by
      rw [hkeys, memb_iff_mem]
      exact (tblExists_iff_mem_keys s0.files u).mp h
    rw [hm] at hc
    exact absurd hc.2 (by simp)
  · intro extract fetchF owner repo src s0
    have hfst : (runBackup extract fetchF owner repo src s0).1
        = (filesPass extract fetchF owner repo
            (syncLabels src.labels (syncComments src.comments
              (syncIssues src.issues s0).1).1).1).1 := rfl
    have hIssEq : (runBackup extract fetchF owner repo src s0).1.issues
        = (syncIssues src.issues s0).1.issues := by
      rw [hfst, filesPass_issues_frame, syncLabels_issues_frame, syncComments_issues_frame]
    have hComEq : (runBackup extract fetchF owner repo src s0).1.comments
        = (syncComments src.comments (syncIssues src.issues s0).1).1.comments := by
      rw [hfst, filesPass_comments_frame, syncLabels_comments_frame]
    have hLabEq : (runBackup extract fetchF owner repo src s0).1.labels
        = (syncLabels src.labels (syncComments src.comments
            (syncIssues src.issues s0).1).1).1.labels := by
      rw [hfst, filesPass_labels_frame]
    apply runBackup_noop
    · intro x hx
      rw [hIssEq]
      exact syncIssues_all_exist src.issues s0 x hx
    · intro x hx
      rw [hComEq]
      exact syncComments_all_exist src.comments _ x hx
    · intro x hx
      rw [hLabEq]
      exact syncLabels_all_exist src.labels _ x hx
    · intro l hl hw
      have hscr : scrapeStore extract (runBackup extract fetchF owner repo src s0).1
          = scrapeStore extract (syncLabels src.labels (syncComments src.comments
              (syncIssues src.issues s0).1).1).1 := by
        apply scrapeStore_congr
        · rw [hfst, filesPass_issues_frame]
        · rw [hfst, filesPass_comments_frame]
      rw [hscr] at hl
      have := filesPass_wanted_in_keys extract fetchF owner repo
        (syncLabels src.labels (syncComments src.comments
          (syncIssues src.issues s0).1).1).1 l hl hw
      rw [hfst]
      exact this

/-- Witness for C2: with issue 1 already stored, a run over a source
listing issue 1 fetches nothing for it; the no-op re-run equality is
closed and needs no witness, but is instantiated here as well. -/
theorem idempotent_resume_witness :
    (1 : Int) ∉ (runBackup (fun _ => ⟨"", []⟩) (fun _ => [])
        ("net4people") ("bbs") (Source.mk [IssueSrc.mk 1 [7] []] [] [])
        (Store.mk [(1, [7])] [] [] [] [] [])).2.issueFetches :=
  idempotent_resume.1 (fun _ => ⟨"", []⟩) (fun _ => [])
    ("net4people") ("bbs") (Source.mk [IssueSrc.mk 1 [7] []] [] [])
    (Store.mk [(1, [7])] [] [] [] [] []) 1 (by decide)

/-! ### SQLite insert constraints (backup.py create_tables)

The id columns of issues, comments, labels and the reaction tables are
declared INTEGER UNIQUE, so a duplicate-id INSERT raises an
IntegrityError.  The files table is CREATE TABLE files (url TEXT,
data BLOB) STRICT: no UNIQUE or PRIMARY KEY on url, so every INSERT
succeeds, duplicates included. -/

/-- INSERT into a table whose key column is UNIQUE. -/
def sqlite_insert_unique {κ : Type} [DecidableEq κ] (t : List (κ × Blob)) (k : κ) (b : Blob) :
    Except Unit (List (κ × Blob)) :=
  if tblExists t k then Except.error () else Except.ok (t ++ [(k, b)])

/-- INSERT into the files table (url not constrained). -/
def sqlite_insert_files (t : List (String × Blob)) (url : String) (b : Blob) :
    List (String × Blob) :=
  t ++ [(url, b)]

def dupFilesUrl : String := "https://avatars.githubusercontent.com/u/1"

/-- Counterexample to C5: inserting a File Record whose url is already
present does not fail with a constraint error; it commits a second record
for that url (the files table has no uniqueness constraint). -/
theorem insertFile_constraint_counterexample :
    sqlite_insert_files [(dupFilesUrl, [1])] dupFilesUrl [2]
      = [(dupFilesUrl, [1]), (dupFilesUrl, [2])]
    ∧ ((sqlite_insert_files [(dupFilesUrl, [1])] dupFilesUrl [2]).filter
        (fun row => decide (row.1 = dupFilesUrl))).length = 2 := by
  decide

/-- C5 amended: insertFile commits unconditionally — the files table
declares no uniqueness on url, so a duplicate-url insert adds a second
record rather than failing; the UNIQUE id tables do fail on duplicates;
and the Asset Fetch Pass itself never attempts a duplicate-url insert:
the urls it inserts are pairwise distinct and disjoint from those already
stored. -/
theorem insertFile_amended :
    (∀ (t : List (String × Blob)) (u : String) (b : Blob),
        sqlite_insert_files t u b = t ++ [(u, b)])
    ∧ (∀ (t : List (Int × Blob)) (k : Int) (b : Blob),
        tblExists t k = true → sqlite_insert_unique t k b = Except.error ())
    ∧ (∀ (extract : Blob → BodyLinks) (fetchF : String → Blob) (owner repo : String)
        (s : Store), ((filesPass extract fetchF owner repo s).2).Nodup)
    ∧ (∀ (extract : Blob → BodyLinks) (fetchF : String → Blob) (owner repo : String)
        (s : Store) (u : String), u ∈ (filesPass extract fetchF owner repo s).2 →
        tblExists s.files u = false) := by
  refine ⟨fun t u b => rfl, ?_, ?_, ?_⟩
  · intro t k b h
    unfold sqlite_insert_unique
    rw [if_pos h]
  · intro extract fetchF owner repo s
    rw [filesPass_order]
    exact dedupKeep_nodup _ _
  · intro extract fetchF owner repo s u hmem
    rw [filesPass_order] at hmem
    rw [dedupKeep_mem] at hmem
    have := hmem.2
    cases hc : tblExists s.files u with
    | false => rfl
    | true =>
      exfalso
      rw [tblExists_iff_mem_keys] at hc
      rw [← memb_iff_mem] at hc
      rw [hc] at this
      cases this

/-- Witness for C5's amended claim: a duplicate id insert into issues
fails; the url fetched by a concrete pass was not already stored. -/
theorem insertFile_amended_witness :
    sqlite_insert_unique [((1 : Int), [7])] 1 [8] = Except.error ()
    ∧ tblExists (Store.mk [] [] [] [] [] []).files dupFilesUrl = false :=
  ⟨insertFile_amended.2.1 [((1 : Int), [7])] 1 [8] (by decide),
   insertFile_amended.2.2.2 (fun _ => ⟨dupFilesUrl, []⟩) (fun _ => [])
     ("net4people") ("bbs")
     (Store.mk [((1 : Int), [7])] [] [] [] [] []) dupFilesUrl (by decide)⟩

theorem dedupKeep_sublist : ∀ (ls seen : List String), List.Sublist (dedupKeep seen ls) ls := by
  intro ls
  induction ls with
  | nil => intro seen; simp [dedupKeep]
  | cons l rest ih =>
    intro seen
    rw [dedupKeep_cons]
    by_cases hl : memb l seen = true
    · rw [if_pos hl]
      exact List.Sublist.cons l (ih seen)
    · rw [if_neg hl]
      exact List.Sublist.cons₂ l (ih (l :: seen))

/-! ### Fetch order of the asset pass (claim C7) -/

/-- Lexicographic Bool comparison of character lists. -/
def strLeChars : List Char → List Char → Bool
  | [], _ => true
  | _ :: _, [] => false
  | a :: as, b :: bs =>
    if a.toNat < b.toNat then true
    else if b.toNat < a.toNat then false
    else strLeChars as bs

def strLe (a b : String) : Bool := strLeChars a.data b.data

/-- Modelled from the spec: the destination path of a wanted asset URL —
the origin name joined with the URL's percent-decoded path segments, with
the query string appended for avatar URLs.  The database-backed source in
src/ stores File Records by url and has no destination notion; this
definition follows the spec's words for the image-origin urls the
ordering claim is tested on. -/
def specDestination (url : String) : String :=
  let c := urlparseRaw url
  let path :=
    if c.netloc == "avatars.githubusercontent.com" && c.query != "" then
      c.path ++ "?" ++ c.query
    else c.path
  c.netloc ++ String.intercalate ("/") (split_url_path path)

/-- Modelled from the spec: ordered lexicographically by the pair
(destination, source URL). -/
def sortedByDest : List String → Bool
  | [] => true
  | [_] => true
  | a :: b :: rest =>
    (if specDestination a = specDestination b then strLe a b
     else strLe (specDestination a) (specDestination b))
    && sortedByDest (b :: rest)

def urlBpng : String := "https://user-images.githubusercontent.com/1/b.png"

def urlApng : String := "https://user-images.githubusercontent.com/1/a.png"

def extractC7 (b : Blob) : BodyLinks :=
  if b = [1] then ⟨"", [urlBpng]⟩ else ⟨"", [urlApng]⟩

def storeC7 : Store := ⟨[(1, [1]), (2, [2])], [], [], [], [], []⟩

/-- Counterexample to C7: with two stored bodies referencing b.png then
a.png on the same image origin, the pass fetches b.png first, so the
fetch sequence is not in lexicographic (destination, source URL) order —
the opposite sequence would be. -/
theorem fetch_order_counterexample :
    (filesPass extractC7 (fun _ => []) ("net4people") ("bbs") storeC7).2 = [urlBpng, urlApng]
    ∧ sortedByDest [urlBpng, urlApng] = false
    ∧ sortedByDest [urlApng, urlBpng] = true := by
  refine ⟨by decide, by decide, by decide⟩

/-- C7 amended: the pass fetches the wanted, unseen links in the order
they are scraped from the stored bodies (issue bodies then comment
bodies, avatar URL before body links), keeping first occurrences only:
the fetch sequence is the seen-filtered first-occurrence subsequence of
the scraped links — in particular a sublist of the scrape order, not a
lexicographically sorted sequence. -/
theorem fetch_order_amended (extract : Blob → BodyLinks) (fetchF : String → Blob)
    (owner repo : String) (s : Store) :
    (filesPass extract fetchF owner repo s).2
      = dedupKeep (s.files.map Prod.fst)
          ((scrapeStore extract s).filter (fun l => link_is_wanted owner repo l))
    ∧ List.Sublist (filesPass extract fetchF owner repo s).2 (scrapeStore extract s) := by
  refine ⟨filesPass_order extract fetchF owner repo s, ?_⟩
  rw [filesPass_order]
  exact (dedupKeep_sublist _ _).trans (List.filter_sublist _)

/-! ### File dedup (claim C6) -/

def avaQ1 : String := "https://avatars.githubusercontent.com/u/1?v=4"

def avaQ2 : String := "https://avatars.githubusercontent.com/u/1?s=64"

def extractC6 (b : Blob) : BodyLinks :=
  if b = [1] then ⟨avaQ1, []⟩ else ⟨avaQ2, []⟩

def storeC6 : Store := ⟨[(1, [1]), (2, [2])], [], [], [], [], []⟩

/-- C6: a wanted url scraped from the stored bodies — however many bodies
reference it — that is not already stored is fetched exactly once and
ends with exactly one File Record; fragments are stripped before dedup,
so urls differing only in fragment share one key; and two avatar-origin
urls differing only in query string are distinct keys yielding two
distinct File Records. -/
theorem file_dedup :
    (∀ (extract : Blob → BodyLinks) (fetchF : String → Blob) (owner repo : String)
        (s : Store) (u : String),
        link_is_wanted owner repo u = true → u ∈ scrapeStore extract s →
        tblExists s.files u = false →
        ((filesPass extract fetchF owner repo s).2.count u = 1
         ∧ ((filesPass extract fetchF owner repo s).1.files.map Prod.fst).count u = 1))
    ∧ stripFragment ("https://user-images.githubusercontent.com/1/a.png#frag1")
        = stripFragment ("https://user-images.githubusercontent.com/1/a.png#frag2")
    ∧ (filesPass extractC6 (fun _ => []) ("net4people") ("bbs") storeC6).1.files.map Prod.fst
        = [avaQ1, avaQ2]
    ∧ avaQ1 ≠ avaQ2 := by
  refine ⟨?_, by decide, by decide, by decide⟩
  intro extract fetchF owner repo s u hw hmem hex
  have hdmem : u ∈ dedupKeep (s.files.map Prod.fst)
      ((scrapeStore extract s).filter (fun l => link_is_wanted owner repo l)) := by
    rw [dedupKeep_mem]
    refine ⟨List.mem_filter.mpr ⟨hmem, hw⟩, ?_⟩
    cases hc : memb u (s.files.map Prod.fst) with
    | false => rfl
    | true =>
      exfalso
      rw [memb_iff_mem] at hc
      rw [← tblExists_iff_mem_keys] at hc
      rw [hc] at hex
      cases hex
  constructor
  · rw [filesPass_order]
    exact List.count_eq_one_of_mem (dedupKeep_nodup _ _) hdmem
  · rw [filesPass_keys, List.count_append]
    have h0 : (s.files.map Prod.fst).count u = 0 := by
      apply List.count_eq_zero_of_not_mem
      intro hc
      rw [← tblExists_iff_mem_keys] at hc
      rw [hc] at hex
      cases hex
    rw [h0, List.count_eq_one_of_mem (dedupKeep_nodup _ _) hdmem]

/-- Witness for C6: with the avatar url of the concrete two-body store,
the hypotheses hold and the pass records it exactly once. -/
theorem file_dedup_witness :
    (filesPass extractC6 (fun _ => []) ("net4people") ("bbs") storeC6).2.count avaQ1 = 1
    ∧ ((filesPass extractC6 (fun _ => []) ("net4people") ("bbs")
        storeC6).1.files.map Prod.fst).count avaQ1 = 1 :=
  file_dedup.1 extractC6 (fun _ => []) ("net4people") ("bbs") storeC6 avaQ1
    (by decide) (by decide) (by decide)

/-! ### Scheme whitelist (claim C10) -/

/-- C10: link_is_wanted accepts only https URLs — any url whose parsed
scheme is not https, in particular a whitelisted host reached over http,
is classified unwanted. -/
theorem wanted_requires_https (owner repo url : String)
    (h : (urlparseRaw url).scheme ≠ ("https")) :
    link_is_wanted owner repo url = false := by
  unfold link_is_wanted
  cases hp : urlparsePy url with
  | error e => rfl
  | ok components =>
    have hc : components = urlparseRaw url := by
      unfold urlparsePy at hp
      by_cases hr : urlsplitRaises url.data = true
      · rw [if_pos hr] at hp; cases hp
      · rw [if_neg hr] at hp
        injection hp with hp
        exact hp.symm
    have hs : (components.scheme == "https") = false := by
      rw [hc]
      simp only [beq_eq_false_iff_ne, ne_eq]
      exact h
    simp [hs]

/-- Witness for C10: each whitelisted host reached over http is unwanted. -/
theorem wanted_requires_https_witness :
    link_is_wanted ("net4people") ("bbs")
        ("http://user-images.githubusercontent.com/1/a.png") = false
    ∧ link_is_wanted ("net4people") ("bbs")
        ("http://github.com/net4people/bbs/files/1/x.pdf") = false
    ∧ link_is_wanted ("net4people") ("bbs")
        ("http://avatars.githubusercontent.com/u/1?v=4") = false :=
  ⟨wanted_requires_https _ _ _ (by decide),
   wanted_requires_https _ _ _ (by decide),
   wanted_requires_https _ _ _ (by decide)⟩
